import Mathlib

/-
  A verification development for the charty maze generator.

  The Python core (src/maze.py, src/algorithm.py) is shallowly embedded:
  the numpy uint32 grid becomes a function from points to naturals (every
  reachable stored value fits in 32 bits), in-place mutation becomes
  functional update, exceptions become Except values that carry the grid
  state at raise time, and the two unbounded while-loops become fuel-indexed
  recursions (running out of fuel yields none; the theorems quantify over
  fuel or exhibit a sufficient amount).
-/

/-- An x--y coordinate, mirroring maze.py's Point (Python ints are modelled
by Int since direction deltas go negative). -/
@[ext]
structure Point where
  x : Int
  y : Int
deriving DecidableEq, Repr

instance : Add Point := ⟨fun a b => ⟨a.x + b.x, a.y + b.y⟩⟩

/-- The four corridor directions of maze.py's Direction IntFlag. -/
inductive Direction where
  | north
  | east
  | south
  | west
deriving DecidableEq, Repr

instance : Fintype Direction where
  elems := ⟨[Direction.north, Direction.east, Direction.south, Direction.west], by decide⟩
  complete := by intro d; cases d <;> decide

/-- The IntFlag bit value of each direction (NORTH = auto() = 1, then 2, 4, 8). -/
def Direction.flag : Direction → Nat
  | north => 1
  | east => 2
  | south => 4
  | west => 8

/-- The unit vector of a direction (maze.py Direction.delta). -/
def Direction.delta : Direction → Point
  | north => ⟨0, -1⟩
  | east => ⟨1, 0⟩
  | south => ⟨0, 1⟩
  | west => ⟨-1, 0⟩

/-- maze.py Direction.opposite. -/
def Direction.opposite : Direction → Direction
  | north => south
  | east => west
  | south => north
  | west => east

/-- Direction.all() yields the IntFlag members in declaration order. -/
def allDirections : List Direction :=
  [Direction.north, Direction.east, Direction.south, Direction.west]

/-- The bit position of a direction's flag. -/
def Direction.flagIdx : Direction → Nat
  | north => 0
  | east => 1
  | south => 2
  | west => 3

/-- Maze corridors live in the lowest 4 bits of a cell (maze.py CORRIDORS_MASK). -/
def CORRIDORS_MASK : Nat := 0xf

/-- Length of the corridor bit mask (maze.py CORRIDORS_WIDTH). -/
def CORRIDORS_WIDTH : Nat := 4

/-- The grid of cell integers: Maze.data. numpy's (width, height)-shaped
uint32 array of the Python code becomes a total function; only in-bounds
points are ever read or written by the embedded operations. -/
def Grid : Type := Point → Nat

/-- 28 set bits (maze.py UInt28.MASK). -/
def UInt28.MASK : Nat := 0xfffffff

/-- The checked UInt28 constructor: raises unless the value fits in 28 bits.
The Python check is `value & ~UInt28.MASK != 0`; over naturals the bits at
positions >= 28 are exactly `v >>> 28`. -/
def UInt28.make (v : Nat) : Except String Nat :=
  if v >>> 28 ≠ 0 then Except.error "does not fit in a 28-bit integer" else Except.ok v

/-- The value produced by the clamping constructor UInt28.clamped:
the masked value, which the checked constructor then accepts. -/
def UInt28.clampedVal (v : Nat) : Nat := v &&& UInt28.MASK

/-- Maze._get_and_maybe_mutate_cell restricted to the mutating call pattern:
the cell's integer is fed to `f`, and the result is stored back only when it
is truthy.  Note the faithful modelling of the Python `if mutated_value:`
truthiness test: a result of 0 is NOT stored (the docstring of the Python
method promises a None test instead). -/
def mutateCell (g : Grid) (p : Point) (f : Nat → Nat) : Grid :=
  if f (g p) = 0 then g else Function.update g p (f (g p))

/-- Cell.set_value: keep the 4 corridor bits, install the 28-bit payload
shifted past them (via _get_and_maybe_mutate_cell). -/
def setValue (g : Grid) (p : Point) (v : Nat) : Grid :=
  mutateCell g p (fun previous => (previous &&& CORRIDORS_MASK) ||| (v <<< CORRIDORS_WIDTH))

/-- Cell.value: strip the corridor bits. -/
def cellValue (g : Grid) (p : Point) : Nat := g p >>> CORRIDORS_WIDTH

/-- Cell.has_corridor: test the direction's flag bit. -/
def hasCorridor (g : Grid) (p : Point) (d : Direction) : Prop :=
  g p &&& d.flag ≠ 0

instance (g : Grid) (p : Point) (d : Direction) : Decidable (hasCorridor g p d) :=
  inferInstanceAs (Decidable (¬ _ = _))

/-- Cell.has_neighbors: any corridor bit set. -/
def hasAnyCorridor (g : Grid) (p : Point) : Prop :=
  g p &&& CORRIDORS_MASK ≠ 0

instance (g : Grid) (p : Point) : Decidable (hasAnyCorridor g p) :=
  inferInstanceAs (Decidable (¬ _ = _))

section Dimensions

variable (w h : Nat)

/-- Maze.in_bounds. -/
def inBounds (p : Point) : Prop :=
  0 ≤ p.x ∧ p.x < (w : Int) ∧ 0 ≤ p.y ∧ p.y < (h : Int)

instance (p : Point) : Decidable (inBounds w h p) :=
  inferInstanceAs (Decidable (_ ∧ _ ∧ _ ∧ _))

/-- Cell._mutate_corridor: if the neighbor in `d` exists, mutate this cell's
corridor bit for `d` and then the neighbor's bit for the opposite direction;
otherwise do nothing. -/
def mutateCorridor (g : Grid) (p : Point) (mf : Nat → Direction → Nat) (d : Direction) : Grid :=
  if inBounds w h (p + d.delta) then
    mutateCell (mutateCell g p (fun v => mf v d)) (p + d.delta) (fun v => mf v d.opposite)
  else g

/-- Cell.open_corridor: OR with the direction's bit flag. -/
def openCorridor (g : Grid) (p : Point) (d : Direction) : Grid :=
  mutateCorridor w h g p (fun v dd => v ||| dd.flag) d

/-- Cell.close_corridor: AND with the complement of the direction's flag.
Python computes `value & ~int(direction)` on unbounded ints and numpy stores
the result into a uint32 slot; for the (always < 2^32) stored values this is
an AND with the 32-bit complement of the flag. -/
def closeCorridor (g : Grid) (p : Point) (d : Direction) : Grid :=
  mutateCorridor w h g p (fun v dd => v &&& (0xffffffff ^^^ dd.flag)) d

/-- Maze.__init__: numpy's np.zeros((width, height)) raises for a negative
dimension and otherwise yields an all-zero array (a zero dimension gives an
empty array, not an error). -/
def mazeInit (width height : Int) : Except String Grid :=
  if width < 0 ∨ height < 0 then Except.error "negative dimensions are not allowed"
  else Except.ok (fun _ => 0)

/-- One scan of RecursiveBacktracker.build's inner for-loop: the first
direction whose neighboring cell exists and has no corridor bits yet. -/
def findCarve (g : Grid) (c : Point) (dirs : List Direction) : Option Direction :=
  dirs.find? (fun d => decide (inBounds w h (c + d.delta)) && !decide (hasAnyCorridor g (c + d.delta)))

/-- The while-loop of RecursiveBacktracker.build.  The stack's head is the
top.  `gen k` models the k-th call of RecursiveBacktracker.shuffled_directions.
Running out of fuel yields none (the Python loop has no fuel; sufficient fuel
is exhibited separately). -/
def buildLoop (gen : Nat → List Direction) : Nat → Nat → List (Point × List Direction) → Grid → Option Grid
  | _, _, [], g => some g
  | 0, _, _ :: _, _ => none
  | fuel + 1, k, (c, dirs) :: rest, g =>
    match findCarve w h g c dirs with
    | some d =>
      buildLoop gen fuel (k + 1) ((c + d.delta, gen k) :: (c, dirs) :: rest)
        (openCorridor w h g c d)
    | none => buildLoop gen fuel k rest g

/-- RecursiveBacktracker.build: out-of-bounds start raises before any
mutation (the error carries the untouched grid), otherwise the loop runs
on the stack seeded with the start cell and a first shuffled direction list. -/
def build (gen : Nat → List Direction) (fuel : Nat) (g : Grid) (start : Point) :
    Except (String × Grid) (Option Grid) :=
  if inBounds w h start then Except.ok (buildLoop w h gen fuel 1 [(start, gen 0)] g)
  else Except.error ("out of bounds", g)

/-- The neighbors pushed by one iteration of measure_distances: for each
direction (in Direction.all() order) with this cell's corridor bit set and an
in-bounds target whose payload is still 0, the pair (neighbor, dist + 1).
This mirrors Cell.reachable_neighbors plus the `value() == 0` filter. -/
def measurePushes (g : Grid) (c : Point) (dist : Nat) : List (Point × Nat) :=
  allDirections.filterMap (fun d =>
    if hasCorridor g c d ∧ inBounds w h (c + d.delta) ∧ cellValue g (c + d.delta) = 0 then
      some (c + d.delta, dist + 1)
    else none)

/-- The while-loop of measure_distances.  Python appends pushes at the list
end and pops from the end; with the head as top this reverses each push
batch onto the stack. -/
def measureLoop : Nat → List (Point × Nat) → Grid → Option Grid
  | _, [], g => some g
  | 0, _ :: _, _ => none
  | fuel + 1, (c, dist) :: rest, g =>
    let g2 := setValue g c (UInt28.clampedVal dist)
    measureLoop fuel ((measurePushes w h g2 c dist).reverse ++ rest) g2

/-- measure_distances: out-of-bounds start raises before any mutation,
otherwise the loop runs seeded with (start, 1). -/
def measureDistances (fuel : Nat) (g : Grid) (start : Point) :
    Except (String × Grid) (Option Grid) :=
  if inBounds w h start then Except.ok (measureLoop w h fuel [(start, 1)] g)
  else Except.error ("out of bounds", g)

/-- The in-bounds cells as a finite vertex type. -/
def toPoint (a : Fin w × Fin h) : Point := ⟨(a.1 : Int), (a.2 : Int)⟩

end Dimensions

/-- One open corridor from `p` to `q`: `q` lies a unit step from `p` and
both matching corridor flag bits are set (which is how the
symmetric-corridor invariant represents one corridor). -/
def corridorLinked (g : Grid) (p q : Point) : Prop :=
  ∃ d : Direction, q = p + d.delta ∧ hasCorridor g p d ∧ hasCorridor g q d.opposite

instance (g : Grid) (p q : Point) : Decidable (corridorLinked g p q) :=
  inferInstanceAs (Decidable (∃ d : Direction, _ ∧ _ ∧ _))

section Dimensions2

variable (w h : Nat)

/-- The open-corridor graph on the grid's cells. -/
def corridorGraph (g : Grid) : SimpleGraph (Fin w × Fin h) where
  Adj a b := corridorLinked g (toPoint w h a) (toPoint w h b) ∨
    corridorLinked g (toPoint w h b) (toPoint w h a)
  symm := fun _ _ hab => hab.symm
  loopless := by
    rintro a (⟨d, hb, -, -⟩ | ⟨d, hb, -, -⟩) <;>
    · cases d
      case north => have hy : (toPoint w h a).y = (toPoint w h a).y + -1 := congrArg Point.y hb; omega
      case south => have hy : (toPoint w h a).y = (toPoint w h a).y + 1 := congrArg Point.y hb; omega
      case east => have hx : (toPoint w h a).x = (toPoint w h a).x + 1 := congrArg Point.x hb; omega
      case west => have hx : (toPoint w h a).x = (toPoint w h a).x + -1 := congrArg Point.x hb; omega

instance (g : Grid) : DecidableRel (corridorGraph w h g).Adj := by
  intro a b
  exact inferInstanceAs (Decidable (_ ∨ _))

/-- One directed step along an open corridor flag, as walked by
Cell.reachable_neighbors (only the stepping cell's own flag bit is tested,
plus the bounds check on the target). -/
def stepAdj (g : Grid) (p q : Point) : Prop :=
  inBounds w h p ∧ inBounds w h q ∧ ∃ d : Direction, q = p + d.delta ∧ hasCorridor g p d

/-- Reachability from `s` by repeatedly walking through open corridors. -/
def corridorReach (g : Grid) (s p : Point) : Prop :=
  Relation.ReflTransGen (stepAdj w h g) s p

/-- The corridor-symmetry invariant of the spec: adjacent in-bounds cells
agree on the flag bits of their shared corridor. -/
def corridorSymmetric (g : Grid) : Prop :=
  ∀ p : Point, inBounds w h p → ∀ d : Direction, inBounds w h (p + d.delta) →
    (hasCorridor g p d ↔ hasCorridor g (p + d.delta) d.opposite)

/-- The cell of an in-bounds point as a vertex of the finite grid type. -/
def toFin (p : Point) (hp : inBounds w h p) : Fin w × Fin h :=
  (⟨p.x.toNat, by obtain ⟨h1, h2, h3, h4⟩ := hp; omega⟩,
   ⟨p.y.toNat, by obtain ⟨h1, h2, h3, h4⟩ := hp; omega⟩)

end Dimensions2

/-- The 2-by-1 grid used against C2: an open corridor between (0,0) and
(1,0) (flag bits 2 and 8), but cell (1,0) starts with payload 5 (5 <<< 4 =
80), so the labeler's sentinel test already considers it visited. -/
def gC2 : Grid := fun p => if p = ⟨0, 0⟩ then 2 else if p = ⟨1, 0⟩ then 88 else 0

/-- The grid the labeler leaves behind on `gC2` (only the start cell gets
stamped; the payload-5 cell is never pushed). -/
def gC2run : Grid := setValue gC2 ⟨0, 0⟩ (UInt28.clampedVal 1)

/-- The 2-by-1 grid used against C3, before the failing close: corridor open
in both directions and payload 1 on cell (0,0); built through the public
operations. -/
def g3pre : Grid := setValue (openCorridor 2 1 (fun _ => 0) ⟨0, 0⟩ Direction.east) ⟨0, 0⟩ 1

/-- The C3 failing state: closing the east corridor of (0,0) updates (0,0)
(18 &&& ~2 = 16 is truthy) but skips the neighbor (8 &&& ~8 = 0 is falsy),
leaving the corridor half-closed. -/
def g3post : Grid := closeCorridor 2 1 g3pre ⟨0, 0⟩ Direction.east

/-- The cells the running builder treats as belonging to the tree: cells
with at least one carved corridor, plus the start cell (which enters the
stack before its first corridor exists). -/
def inV (start : Point) (g : Grid) (p : Point) : Prop :=
  hasAnyCorridor g p ∨ p = start

instance (start : Point) (g : Grid) (p : Point) : Decidable (inV start g p) :=
  inferInstanceAs (Decidable (_ ∨ _))

/-- Loop invariant of RecursiveBacktracker.build: stack frames hold in-bounds
tree cells with full direction lists; a tree cell off the stack is fully
expanded; corridor bits are symmetric and stay in bounds; corridors appear
only once the start is carved; the corridor graph restricted to the tree
cells is connected and acyclic with exactly one edge less than it has
vertices. -/
structure BuildInv (w h : Nat) (start : Point) (st : List (Point × List Direction))
    (g : Grid) : Prop where
  stackIn : ∀ f ∈ st, inBounds w h f.1
  stackV : ∀ f ∈ st, inV start g f.1
  stackDirs : ∀ f ∈ st, ∀ d : Direction, d ∈ f.2
  expanded : ∀ p, inBounds w h p → inV start g p → (∀ f ∈ st, f.1 ≠ p) →
    ∀ d : Direction, inBounds w h (p + d.delta) → inV start g (p + d.delta)
  corrIn : ∀ p d, hasCorridor g p d →
    inBounds w h p ∧ inBounds w h (p + d.delta) ∧ hasCorridor g (p + d.delta) d.opposite
  startSeed : (∀ p, ¬ hasAnyCorridor g p) ∨ hasAnyCorridor g start
  edgeCount : (corridorGraph w h g).edgeFinset.card + 1 =
    (Finset.univ.filter (fun a : Fin w × Fin h => inV start g (toPoint w h a))).card
  reach : ∀ a b : Fin w × Fin h, inV start g (toPoint w h a) → inV start g (toPoint w h b) →
    (corridorGraph w h g).Reachable a b
  acyclic : (corridorGraph w h g).IsAcyclic

/-- Loop invariant of measure_distances over the corridor tree of the
untouched grid `g0` rooted at `r`: corridor bits never change; every
labeled cell carries 1 + its tree distance from the root; stack frames are
in-bounds unlabeled cells carrying 1 + their distance whose closer
neighbor is already labeled (or which are the root); stack cells are
distinct; once anything is labeled the root is; and every corridor
neighbor of a labeled cell is labeled or still on the stack. -/
structure MeasureInv (w h : Nat) (g0 : Grid) (r : Fin w × Fin h)
    (st : List (Point × Nat)) (g : Grid) : Prop where
  bits : ∀ p, g p &&& 15 = g0 p &&& 15
  labels : ∀ a : Fin w × Fin h, cellValue g (toPoint w h a) ≠ 0 →
    cellValue g (toPoint w h a) = (corridorGraph w h g0).dist r a + 1
  stackIn : ∀ e ∈ st, inBounds w h e.1
  stackDist : ∀ e ∈ st, ∀ a : Fin w × Fin h, toPoint w h a = e.1 →
    e.2 = (corridorGraph w h g0).dist r a + 1
  stackPar : ∀ e ∈ st, ∀ a : Fin w × Fin h, toPoint w h a = e.1 →
    a = r ∨ ∀ q : Fin w × Fin h, (corridorGraph w h g0).Adj q a →
      (corridorGraph w h g0).dist r q + 1 = (corridorGraph w h g0).dist r a →
      cellValue g (toPoint w h q) ≠ 0
  stackUnlab : ∀ e ∈ st, cellValue g e.1 = 0
  stackNodup : (st.map Prod.fst).Nodup
  startLab : (∀ a : Fin w × Fin h, cellValue g (toPoint w h a) = 0) ∨
    cellValue g (toPoint w h r) ≠ 0
  adjClosed : ∀ a : Fin w × Fin h, cellValue g (toPoint w h a) ≠ 0 →
    ∀ d : Direction, hasCorridor g (toPoint w h a) d →
      inBounds w h (toPoint w h a + d.delta) →
      cellValue g (toPoint w h a + d.delta) ≠ 0 ∨
        (toPoint w h a + d.delta) ∈ st.map Prod.fst

/-- The number of in-bounds cells whose payload is still the 0 sentinel:
the part of the measure loop's termination measure that each pop
decreases. -/
def unlabeledCount (w h : Nat) (g : Grid) : Nat :=
  (Finset.univ.filter (fun a : Fin w × Fin h => cellValue g (toPoint w h a) = 0)).card

/-! ### Bit-level and geometric infrastructure -/

theorem Direction.flag_eq_two_pow (d : Direction) : d.flag = 2 ^ d.flagIdx := by
  cases d <;> rfl

theorem hasCorridor_iff_testBit (g : Grid) (p : Point) (d : Direction) :
    hasCorridor g p d ↔ (g p).testBit d.flagIdx := by
  rw [hasCorridor, Direction.flag_eq_two_pow, Nat.and_two_pow]
  cases hb : (g p).testBit d.flagIdx <;>
    simp [hb, Nat.pos_iff_ne_zero.mp (pow_pos (by norm_num : (0:ℕ) < 2) d.flagIdx)]

theorem and_fifteen_eq_zero_iff (v : Nat) : v &&& 15 = 0 ↔ ∀ j, j < 4 → v.testBit j = false := by
  have h15 : ∀ j, (15 : Nat).testBit j = decide (j < 4) := by
    intro j
    have he : (15 : Nat) = 2 ^ 4 - 1 := by norm_num
    rw [he, Nat.testBit_two_pow_sub_one]
  constructor
  · intro hz j hj
    have := congrArg (fun t => t.testBit j) hz
    simp only [Nat.testBit_and, Nat.zero_testBit, Bool.and_eq_false_iff] at this
    rcases this with hv | hm
    · exact hv
    · rw [h15 j] at hm
      simp [hj] at hm
  · intro hall
    apply Nat.eq_of_testBit_eq
    intro j
    simp only [Nat.testBit_and, Nat.zero_testBit, h15 j]
    rcases lt_or_le j 4 with hj | hj
    · simp [hall j hj]
    · simp [Nat.not_lt.mpr hj]

theorem flagIdx_lt_four (d : Direction) : d.flagIdx < 4 := by cases d <;> decide

theorem hasAnyCorridor_iff (g : Grid) (p : Point) :
    hasAnyCorridor g p ↔ ∃ d : Direction, hasCorridor g p d := by
  unfold hasAnyCorridor CORRIDORS_MASK
  constructor
  · intro hne
    rcases Nat.eq_zero_or_pos ((g p) &&& 15) with hz | _
    · exact absurd hz hne
    have : ¬ ∀ j, j < 4 → (g p).testBit j = false := by
      intro hall
      exact hne ((and_fifteen_eq_zero_iff (g p)).mpr hall)
    push_neg at this
    obtain ⟨j, hj, hbit⟩ := this
    rw [Bool.ne_false_iff] at hbit
    have : ∃ d : Direction, d.flagIdx = j := by
      interval_cases j
      · exact ⟨Direction.north, rfl⟩
      · exact ⟨Direction.east, rfl⟩
      · exact ⟨Direction.south, rfl⟩
      · exact ⟨Direction.west, rfl⟩
    obtain ⟨d, hd⟩ := this
    exact ⟨d, (hasCorridor_iff_testBit g p d).mpr (hd ▸ hbit)⟩
  · rintro ⟨d, hd⟩
    rw [hasCorridor_iff_testBit] at hd
    intro hz
    have := (and_fifteen_eq_zero_iff (g p)).mp hz d.flagIdx (flagIdx_lt_four d)
    rw [this] at hd
    exact Bool.false_ne_true hd

theorem or_flag_ne_zero (v : Nat) (d : Direction) : v ||| d.flag ≠ 0 := by
  intro h0
  have := congrArg (fun t => t.testBit d.flagIdx) h0
  simp only [Nat.testBit_or, Nat.zero_testBit, Bool.or_eq_false_iff] at this
  rw [Direction.flag_eq_two_pow, Nat.testBit_two_pow_self] at this
  exact Bool.noConfusion this.2

theorem add_delta_ne (p : Point) (d : Direction) : p + d.delta ≠ p := by
  intro hEq
  cases d
  case north => have hy : p.y + -1 = p.y := congrArg Point.y hEq; omega
  case east => have hx : p.x + 1 = p.x := congrArg Point.x hEq; omega
  case south => have hy : p.y + 1 = p.y := congrArg Point.y hEq; omega
  case west => have hx : p.x + -1 = p.x := congrArg Point.x hEq; omega

theorem add_delta_opposite (p : Point) (d : Direction) : p + d.delta + d.opposite.delta = p := by
  cases d
  case north => exact Point.ext (show p.x + 0 + 0 = p.x by omega) (show p.y + -1 + 1 = p.y by omega)
  case east => exact Point.ext (show p.x + 1 + -1 = p.x by omega) (show p.y + 0 + 0 = p.y by omega)
  case south => exact Point.ext (show p.x + 0 + 0 = p.x by omega) (show p.y + 1 + -1 = p.y by omega)
  case west => exact Point.ext (show p.x + -1 + 1 = p.x by omega) (show p.y + 0 + 0 = p.y by omega)

theorem opposite_opposite (d : Direction) : d.opposite.opposite = d := by cases d <;> rfl

theorem mem_allDirections (d : Direction) : d ∈ allDirections := by cases d <;> decide

theorem mutateCell_apply_ne (g : Grid) (p : Point) (f : Nat → Nat) (q : Point) (hq : q ≠ p) :
    mutateCell g p f q = g q := by
  unfold mutateCell
  split
  · rfl
  · exact Function.update_noteq hq _ _

theorem mutateCell_apply_self (g : Grid) (p : Point) (f : Nat → Nat) (hf : f (g p) ≠ 0) :
    mutateCell g p f p = f (g p) := by
  unfold mutateCell
  rw [if_neg hf]
  exact Function.update_same _ _ _

theorem mutateCell_skip (g : Grid) (p : Point) (f : Nat → Nat) (hf : f (g p) = 0) :
    mutateCell g p f = g := if_pos hf

/-! ### Pointwise behavior of the cell operations -/

theorem openCorridor_oob (w h : Nat) (g : Grid) (p : Point) (d : Direction)
    (hn : ¬ inBounds w h (p + d.delta)) : openCorridor w h g p d = g := by
  unfold openCorridor mutateCorridor
  exact if_neg hn

theorem openCorridor_apply_self (w h : Nat) (g : Grid) (p : Point) (d : Direction)
    (hn : inBounds w h (p + d.delta)) : openCorridor w h g p d p = g p ||| d.flag := by
  unfold openCorridor mutateCorridor
  rw [if_pos hn]
  rw [mutateCell_apply_ne _ _ _ _ (Ne.symm (add_delta_ne p d))]
  exact mutateCell_apply_self _ _ _ (or_flag_ne_zero _ _)

theorem openCorridor_apply_neighbor (w h : Nat) (g : Grid) (p : Point) (d : Direction)
    (hn : inBounds w h (p + d.delta)) :
    openCorridor w h g p d (p + d.delta) = g (p + d.delta) ||| d.opposite.flag := by
  unfold openCorridor mutateCorridor
  rw [if_pos hn]
  have hne : mutateCell g p (fun v => v ||| d.flag) (p + d.delta) = g (p + d.delta) :=
    mutateCell_apply_ne _ _ _ _ (add_delta_ne p d)
  rw [mutateCell_apply_self _ _ _ (by rw [hne]; exact or_flag_ne_zero _ _), hne]

theorem openCorridor_apply_other (w h : Nat) (g : Grid) (p : Point) (d : Direction)
    (q : Point) (hq1 : q ≠ p) (hq2 : q ≠ p + d.delta) : openCorridor w h g p d q = g q := by
  unfold openCorridor mutateCorridor
  split
  · rw [mutateCell_apply_ne _ _ _ _ hq2, mutateCell_apply_ne _ _ _ _ hq1]
  · rfl

/-- A corridor flag query after open_corridor: the targeted bit of the two
touched cells turns on, everything else is untouched. -/
theorem hasCorridor_openCorridor (w h : Nat) (g : Grid) (p : Point) (d : Direction)
    (hn : inBounds w h (p + d.delta)) (q : Point) (e : Direction) :
    hasCorridor (openCorridor w h g p d) q e ↔
      hasCorridor g q e ∨ (q = p ∧ e = d) ∨ (q = p + d.delta ∧ e = d.opposite) := by
  have hflag : ∀ (v : Nat) (d1 d2 : Direction),
      ((v ||| d1.flag) &&& d2.flag ≠ 0) ↔ (v &&& d2.flag ≠ 0 ∨ d1 = d2) := by
    intro v d1 d2
    rw [Direction.flag_eq_two_pow, Direction.flag_eq_two_pow, Nat.and_two_pow, Nat.and_two_pow]
    have hpow := Nat.pos_iff_ne_zero.mp (pow_pos (by norm_num : (0:ℕ) < 2) d2.flagIdx)
    rcases eq_or_ne d1 d2 with rfl | hne
    · simp [Nat.testBit_or, Nat.testBit_two_pow_self, hpow]
    · have hidx : d1.flagIdx ≠ d2.flagIdx := by
        cases d1 <;> cases d2 <;> (first | (exact absurd rfl hne) | decide)
      simp [Nat.testBit_or, Nat.testBit_two_pow_of_ne hidx, hne]
  rcases eq_or_ne q p with rfl | hqp
  · rw [hasCorridor, openCorridor_apply_self w h g q d hn, hflag]
    have : ¬ q = q + d.delta := fun hEq => add_delta_ne q d hEq.symm
    constructor
    · rintro (hc | rfl)
      · exact Or.inl hc
      · exact Or.inr (Or.inl ⟨rfl, rfl⟩)
    · rintro (hc | ⟨-, rfl⟩ | ⟨hEq, -⟩)
      · exact Or.inl hc
      · exact Or.inr rfl
      · exact absurd hEq this
  · rcases eq_or_ne q (p + d.delta) with rfl | hqn
    · rw [hasCorridor, openCorridor_apply_neighbor w h g p d hn, hflag]
      constructor
      · rintro (hc | rfl)
        · exact Or.inl hc
        · exact Or.inr (Or.inr ⟨rfl, rfl⟩)
      · rintro (hc | ⟨hEq, -⟩ | ⟨-, rfl⟩)
        · exact Or.inl hc
        · exact absurd hEq (add_delta_ne p d)
        · exact Or.inr rfl
    · rw [hasCorridor, openCorridor_apply_other w h g p d q hqp hqn]
      constructor
      · exact fun hc => Or.inl hc
      · rintro (hc | ⟨hEq, -⟩ | ⟨hEq, -⟩)
        · exact hc
        · exact absurd hEq hqp
        · exact absurd hEq hqn

/-- Opening a corridor only ever adds corridor bits. -/
theorem hasCorridor_mono_open (w h : Nat) (g : Grid) (p : Point) (d : Direction)
    (q : Point) (e : Direction) (hc : hasCorridor g q e) :
    hasCorridor (openCorridor w h g p d) q e := by
  by_cases hn : inBounds w h (p + d.delta)
  · exact (hasCorridor_openCorridor w h g p d hn q e).mpr (Or.inl hc)
  · rwa [openCorridor_oob w h g p d hn]

theorem hasAnyCorridor_mono_open (w h : Nat) (g : Grid) (p : Point) (d : Direction)
    (q : Point) (hc : hasAnyCorridor g q) : hasAnyCorridor (openCorridor w h g p d) q := by
  rw [hasAnyCorridor_iff] at hc ⊢
  obtain ⟨e, he⟩ := hc
  exact ⟨e, hasCorridor_mono_open w h g p d q e he⟩

/-- set_value keeps the corridor bits of every cell (the mutated one has its
low 4 bits copied, the rest are untouched). -/
theorem setValue_and_fifteen (g : Grid) (p : Point) (v : Nat) (q : Point) :
    setValue g p v q &&& 15 = g q &&& 15 := by
  rcases eq_or_ne q p with rfl | hq
  · unfold setValue mutateCell CORRIDORS_MASK CORRIDORS_WIDTH
    split
    · rfl
    · rw [Function.update_same]
      apply Nat.eq_of_testBit_eq
      intro j
      rcases lt_or_le j 4 with hj | hj
      · have h4 : decide (4 ≤ j) = false := decide_eq_false (by omega)
        have h15 : (15 : Nat).testBit j = true := by
          have he : (15 : Nat) = 2 ^ 4 - 1 := by norm_num
          rw [he, Nat.testBit_two_pow_sub_one]
          simpa using hj
        simp [Nat.testBit_and, Nat.testBit_or, Nat.testBit_shiftLeft, h4, h15]
      · have h15 : (15 : Nat).testBit j = false := by
          have he : (15 : Nat) = 2 ^ 4 - 1 := by norm_num
          rw [he, Nat.testBit_two_pow_sub_one]
          simpa using Nat.not_lt.mpr hj
        simp [Nat.testBit_and, h15]
  · rw [setValue, mutateCell_apply_ne _ _ _ _ hq]

theorem hasCorridor_setValue (g : Grid) (p : Point) (v : Nat) (q : Point) (e : Direction) :
    hasCorridor (setValue g p v) q e ↔ hasCorridor g q e := by
  unfold hasCorridor
  have h15 : ∀ (x : Nat) (d : Direction), x &&& d.flag = (x &&& 15) &&& d.flag := by
    intro x d
    rw [Nat.land_assoc]
    have hfl : (15 : Nat) &&& d.flag = d.flag := by cases d <;> decide
    rw [hfl]
  rw [h15 (setValue g p v q) e, h15 (g q) e, setValue_and_fifteen]

theorem hasAnyCorridor_setValue (g : Grid) (p : Point) (v : Nat) (q : Point) :
    hasAnyCorridor (setValue g p v) q ↔ hasAnyCorridor g q := by
  unfold hasAnyCorridor CORRIDORS_MASK
  rw [setValue_and_fifteen]

/-! ### Payload-shift lemmas -/

/-- OR-ing a corridor flag (bits 0..3) does not disturb the payload. -/
theorem or_flag_shiftRight (v : Nat) (d : Direction) : (v ||| d.flag) >>> 4 = v >>> 4 := by
  apply Nat.eq_of_testBit_eq
  intro j
  simp only [Nat.testBit_shiftRight, Nat.testBit_or]
  have hflag : d.flag.testBit (4 + j) = false := by
    rw [Direction.flag_eq_two_pow]
    exact Nat.testBit_two_pow_of_ne (by cases d <;> simp [Direction.flagIdx] <;> omega)
  simp [hflag]

/-- AND-ing with the 32-bit complement of a corridor flag does not disturb
the payload of a value that fits in 32 bits. -/
theorem and_mask_shiftRight (v : Nat) (d : Direction) (hv : v < 2 ^ 32) :
    (v &&& (0xffffffff ^^^ d.flag)) >>> 4 = v >>> 4 := by
  apply Nat.eq_of_testBit_eq
  intro j
  simp only [Nat.testBit_shiftRight, Nat.testBit_and, Nat.testBit_xor]
  rcases lt_or_le (4 + j) 32 with hj | hj
  · have hmask : (0xffffffff : Nat).testBit (4 + j) = true := by
      have he : (0xffffffff : Nat) = 2 ^ 32 - 1 := by norm_num
      rw [he, Nat.testBit_two_pow_sub_one]
      simpa using hj
    have hflag : d.flag.testBit (4 + j) = false := by
      rw [Direction.flag_eq_two_pow]
      exact Nat.testBit_two_pow_of_ne (by cases d <;> simp [Direction.flagIdx] <;> omega)
    simp [hmask, hflag]
  · have hv' : v.testBit (4 + j) = false :=
      Nat.testBit_lt_two_pow (lt_of_lt_of_le hv (Nat.pow_le_pow_right (by norm_num) hj))
    simp [hv']

/-- A mutateCell with an AND-style mutator preserves every payload whenever
it would preserve the payload of the touched cell. -/
theorem cellValue_mutateCell (g : Grid) (p : Point) (f : Nat → Nat)
    (hp : f (g p) >>> 4 = g p >>> 4) (q : Point) :
    cellValue (mutateCell g p f) q = cellValue g q := by
  rcases eq_or_ne q p with rfl | hq
  · unfold mutateCell cellValue
    split
    · rfl
    · rw [Function.update_same]
      exact hp
  · unfold cellValue
    rw [mutateCell_apply_ne _ _ _ _ hq]

theorem cellValue_openCorridor (w h : Nat) (g : Grid) (p : Point) (d : Direction) (q : Point) :
    cellValue (openCorridor w h g p d) q = cellValue g q := by
  unfold openCorridor mutateCorridor
  split
  · rw [cellValue_mutateCell _ _ _ (or_flag_shiftRight _ _),
      cellValue_mutateCell _ _ _ (or_flag_shiftRight _ _)]
  · rfl

theorem cellValue_closeCorridor (w h : Nat) (g : Grid) (p : Point) (d : Direction)
    (hv : ∀ r, g r < 2 ^ 32) (q : Point) :
    cellValue (closeCorridor w h g p d) q = cellValue g q := by
  unfold closeCorridor mutateCorridor
  split
  · have hinner : ∀ r, mutateCell g p (fun v => v &&& (0xffffffff ^^^ d.flag)) r < 2 ^ 32 := by
      intro r
      rcases eq_or_ne r p with rfl | hr
      · unfold mutateCell
        split
        · exact hv r
        · rw [Function.update_same]
          exact lt_of_le_of_lt Nat.and_le_left (hv r)
      · rw [mutateCell_apply_ne _ _ _ _ hr]
        exact hv r
    rw [cellValue_mutateCell _ _ _ (and_mask_shiftRight _ _ (hinner _)),
      cellValue_mutateCell _ _ _ (and_mask_shiftRight _ _ (hv _))]
  · rfl

/-! ### UInt28 lemmas -/

theorem uint28_make_error_iff (v : Nat) :
    (∃ e, UInt28.make v = Except.error e) ↔ ∃ i, 28 ≤ i ∧ v.testBit i = true := by
  unfold UInt28.make
  constructor
  · rintro ⟨e, he⟩
    split at he
    case isTrue hne =>
      obtain ⟨i, hbit, -⟩ := Nat.exists_most_significant_bit hne
      rw [Nat.testBit_shiftRight] at hbit
      exact ⟨28 + i, by omega, hbit⟩
    case isFalse => exact Except.noConfusion he
  · rintro ⟨i, hi, hbit⟩
    have hne : v >>> 28 ≠ 0 := by
      intro h0
      have hz : (v >>> 28).testBit (i - 28) = false := by
        rw [h0]
        exact Nat.zero_testBit _
      rw [Nat.testBit_shiftRight, show 28 + (i - 28) = i by omega, hbit] at hz
      exact Bool.noConfusion hz
    rw [if_pos hne]
    exact ⟨_, rfl⟩

theorem uint28_make_ok (v : Nat) (hv : v < 2 ^ 28) : UInt28.make v = Except.ok v := by
  have hz : v >>> 28 = 0 := by
    rw [Nat.shiftRight_eq_div_pow]
    exact Nat.div_eq_of_lt hv
  unfold UInt28.make
  rw [if_neg (by simp [hz])]

theorem clampedVal_lt (v : Nat) : UInt28.clampedVal v < 2 ^ 28 := by
  unfold UInt28.clampedVal UInt28.MASK
  have he : (0xfffffff : Nat) = 2 ^ 28 - 1 := by norm_num
  rw [he, Nat.and_pow_two_sub_one_eq_mod]
  exact Nat.mod_lt _ (by norm_num)

/-! ### Claim theorems: bounded values, creation, cell operations -/

/-- C6: constructing UInt28(v) raises exactly when some bit at position >= 28
is set (so all values below 2^28 succeed and are stored exactly), while the
clamping constructor masks to 28 bits, never raises, and sends 0x1FFFFFFF to
0x0FFFFFFF. -/
theorem C6_uint28_range_check :
    (∀ v : Nat, (∃ e, UInt28.make v = Except.error e) ↔ ∃ i, 28 ≤ i ∧ v.testBit i = true) ∧
    (∀ v : Nat, v < 2 ^ 28 → UInt28.make v = Except.ok v) ∧
    (∀ v : Nat, UInt28.clampedVal v = v &&& 0xfffffff ∧
      UInt28.make (UInt28.clampedVal v) = Except.ok (UInt28.clampedVal v)) ∧
    UInt28.clampedVal 0x1FFFFFFF = 0x0FFFFFFF := by
  refine ⟨uint28_make_error_iff, uint28_make_ok, ?_, by decide⟩
  intro v
  exact ⟨rfl, uint28_make_ok _ (clampedVal_lt v)⟩

/-- C6 witness: the theorem applied at the concrete value 77. -/
theorem C6_uint28_range_check_witness : UInt28.make 77 = Except.ok 77 :=
  C6_uint28_range_check.2.1 77 (by norm_num)

/-- C8 counterexample: the claim says creation fails whenever a dimension is
non-positive, but np.zeros accepts a zero dimension, so Maze(0, 5) succeeds
(with an empty, all-zero grid) instead of raising. -/
theorem C8_counterexample :
    mazeInit 0 5 = Except.ok (fun _ => 0) ∧ ∀ e, mazeInit 0 5 ≠ Except.error e := by
  constructor
  · rfl
  · intro e he
    rw [show mazeInit 0 5 = Except.ok (fun _ => 0) from rfl] at he
    exact Except.noConfusion he

/-- C8 amended: creation fails exactly for a negative dimension; for
width, height >= 1 it succeeds and every cell's stored integer is 0, i.e.
payload 0 and all four corridor flag bits clear. -/
theorem C8_create_amended :
    (∀ wi hi : Int, (∃ e, mazeInit wi hi = Except.error e) ↔ wi < 0 ∨ hi < 0) ∧
    (∀ wi hi : Int, 1 ≤ wi → 1 ≤ hi → mazeInit wi hi = Except.ok (fun _ => 0)) ∧
    (∀ p : Point, (fun _ => (0 : Nat)) p = 0 ∧ cellValue (fun _ => 0) p = 0 ∧
      ¬ hasAnyCorridor (fun _ => 0) p ∧ ∀ d : Direction, ¬ hasCorridor (fun _ => 0) p d) := by
  refine ⟨?_, ?_, ?_⟩
  · intro wi hi
    unfold mazeInit
    constructor
    · rintro ⟨e, he⟩
      by_contra hcon
      rw [if_neg hcon] at he
      exact Except.noConfusion he
    · intro hor
      rw [if_pos hor]
      exact ⟨_, rfl⟩
  · intro wi hi h1 h2
    unfold mazeInit
    rw [if_neg (by omega)]
  · intro p
    refine ⟨rfl, Nat.zero_shiftRight 4, ?_, ?_⟩
    · intro hc
      exact hc (Nat.zero_and _)
    · intro d hc
      exact hc (Nat.zero_and _)

/-- C8 amended witness: creation at the concrete size 3 by 4. -/
theorem C8_create_amended_witness : mazeInit 3 4 = Except.ok (fun _ => 0) :=
  C8_create_amended.2.1 3 4 (by norm_num) (by norm_num)

/-- C4 failing input (code bug): on a fresh 1-by-1 maze, set_value(UInt28(1))
then set_value(UInt28(0)).  UInt28(0) is constructible, yet the second write
is silently dropped: the packed value (previous & 0xF) | (0 << 4) is 0, which
the truthiness test of _get_and_maybe_mutate_cell refuses to store (its own
docstring promises an update for any non-None result).  The subsequent read
returns 1, not the 0 the claim (and spec) require. -/
theorem C4_set_value_zero_lost :
    UInt28.make 0 = Except.ok 0 ∧
    cellValue (setValue (setValue (fun _ => 0) ⟨0, 0⟩ 1) ⟨0, 0⟩ 0) ⟨0, 0⟩ = 1 ∧
    cellValue (setValue (setValue (fun _ => 0) ⟨0, 0⟩ 1) ⟨0, 0⟩ 0) ⟨0, 0⟩ ≠ 0 := by
  refine ⟨rfl, by decide, by decide⟩

/-- C3 failing input (code bug): start from a fresh 2-by-1 maze, open the
east corridor of (0,0) (state: cells 0x2 / 0x8, symmetric), set payload 1 on
(0,0) (state: 0x12 / 0x8, still symmetric), then close the east corridor of
(0,0).  The first half of the close stores 0x12 & ~2 = 0x10, but the
neighbor's half computes 0x8 & ~8 = 0, which the truthiness test of
_get_and_maybe_mutate_cell refuses to store.  The corridor is now half
closed: symmetry, which held before the call, is violated after it. -/
theorem C3_close_corridor_asymmetry :
    corridorSymmetric 2 1 g3pre ∧
    hasCorridor g3post ⟨1, 0⟩ Direction.west ∧
    ¬ hasCorridor g3post ⟨0, 0⟩ Direction.east ∧
    ¬ corridorSymmetric 2 1 g3post := by
  refine ⟨?_, by decide, by decide, ?_⟩
  · intro p hp d hpd
    obtain ⟨h1, h2, h3, h4⟩ := hp
    obtain ⟨h5, h6, h7, h8⟩ := hpd
    cases d
    case north =>
      have hyy : (0:Int) ≤ p.y + -1 := h7
      omega
    case south =>
      have hyy : p.y + 1 < (1:Int) := h8
      omega
    case east =>
      have hxx : p.x + 1 < (2:Int) := h6
      have hp0 : p = ⟨0, 0⟩ := Point.ext (show p.x = 0 by omega) (show p.y = 0 by omega)
      subst hp0
      decide
    case west =>
      have hxx : (0:Int) ≤ p.x + -1 := h5
      have hp0 : p = ⟨1, 0⟩ := Point.ext (show p.x = 1 by omega) (show p.y = 0 by omega)
      subst hp0
      decide
  · intro hsym
    have hpt : (⟨1, 0⟩ : Point) + Direction.west.delta = ⟨0, 0⟩ := by decide
    have hiff := hsym ⟨1, 0⟩ (by decide) Direction.west (by rw [hpt]; decide)
    rw [hpt] at hiff
    have h1 : hasCorridor g3post ⟨1, 0⟩ Direction.west := by decide
    have h2 : ¬ hasCorridor g3post ⟨0, 0⟩ Direction.east := by decide
    exact h2 (hiff.mp h1)

/-- C5: an out-of-bounds start makes both build and measure_distances raise
immediately; the bounds check precedes the loops, so the error carries the
grid exactly as it was passed in (no partial mutation). -/
theorem C5_out_of_bounds_start (w h : Nat) (gen : Nat → List Direction) (fuel fuel2 : Nat)
    (g : Grid) (start : Point) (hs : ¬ inBounds w h start) :
    build w h gen fuel g start = Except.error ("out of bounds", g) ∧
    measureDistances w h fuel2 g start = Except.error ("out of bounds", g) := by
  constructor
  · unfold build
    exact if_neg hs
  · unfold measureDistances
    exact if_neg hs

/-- C5 witness: the theorem applied on a 2-by-2 grid with start (5,5). -/
theorem C5_out_of_bounds_start_witness :
    build 2 2 (fun _ => allDirections) 9 (fun _ => 0) ⟨5, 5⟩ =
      Except.error ("out of bounds", fun _ => 0) ∧
    measureDistances 2 2 9 (fun _ => 0) ⟨5, 5⟩ = Except.error ("out of bounds", fun _ => 0) :=
  C5_out_of_bounds_start 2 2 (fun _ => allDirections) 9 9 (fun _ => 0) ⟨5, 5⟩ (by decide)

/-- C7: for an in-bounds cell, open_corridor sets this cell's flag for d and
the neighbor's flag for opposite(d) when the neighbor exists, is a no-op on
the whole grid when it does not, and is idempotent. -/
theorem C7_open_corridor_behavior (w h : Nat) (g : Grid) (p : Point) (d : Direction)
    (hp : inBounds w h p) :
    (inBounds w h (p + d.delta) →
      hasCorridor (openCorridor w h g p d) p d ∧
      hasCorridor (openCorridor w h g p d) (p + d.delta) d.opposite) ∧
    (¬ inBounds w h (p + d.delta) → openCorridor w h g p d = g) ∧
    openCorridor w h (openCorridor w h g p d) p d = openCorridor w h g p d := by
  refine ⟨fun hn => ⟨?_, ?_⟩, fun hn => openCorridor_oob w h g p d hn, ?_⟩
  · exact (hasCorridor_openCorridor w h g p d hn p d).mpr (Or.inr (Or.inl ⟨rfl, rfl⟩))
  · exact (hasCorridor_openCorridor w h g p d hn _ _).mpr (Or.inr (Or.inr ⟨rfl, rfl⟩))
  · by_cases hn : inBounds w h (p + d.delta)
    · funext q
      rcases eq_or_ne q p with rfl | hq1
      · rw [openCorridor_apply_self w h _ q d hn, openCorridor_apply_self w h g q d hn,
          Nat.or_assoc, Nat.or_self]
      · rcases eq_or_ne q (p + d.delta) with rfl | hq2
        · rw [openCorridor_apply_neighbor w h _ p d hn, openCorridor_apply_neighbor w h g p d hn,
            Nat.or_assoc, Nat.or_self]
        · rw [openCorridor_apply_other w h _ p d q hq1 hq2,
            openCorridor_apply_other w h g p d q hq1 hq2]
    · rw [openCorridor_oob w h g p d hn, openCorridor_oob w h g p d hn]

/-- C7 witness: the theorem applied on a fresh 2-by-1 grid at (0,0), east. -/
theorem C7_open_corridor_behavior_witness :
    openCorridor 2 1 (openCorridor 2 1 (fun _ => 0) ⟨0, 0⟩ Direction.east) ⟨0, 0⟩ Direction.east =
      openCorridor 2 1 (fun _ => 0) ⟨0, 0⟩ Direction.east :=
  (C7_open_corridor_behavior 2 1 (fun _ => 0) ⟨0, 0⟩ Direction.east (by decide)).2.2

/-- C10: neither open_corridor nor close_corridor ever changes the payload
read through value() of any cell (stored values fit in 32 bits, as numpy's
uint32 array guarantees). -/
theorem C10_corridor_ops_preserve_payload (w h : Nat) (g : Grid) (p : Point) (d : Direction)
    (hv : ∀ r, g r < 2 ^ 32) :
    (∀ q, cellValue (openCorridor w h g p d) q = cellValue g q) ∧
    (∀ q, cellValue (closeCorridor w h g p d) q = cellValue g q) :=
  ⟨cellValue_openCorridor w h g p d, cellValue_closeCorridor w h g p d hv⟩

/-- C10 witness: the theorem applied on the concrete state g3pre. -/
theorem C10_corridor_ops_preserve_payload_witness :
    cellValue (closeCorridor 2 1 g3pre ⟨0, 0⟩ Direction.east) ⟨0, 0⟩ = cellValue g3pre ⟨0, 0⟩ :=
  (C10_corridor_ops_preserve_payload 2 1 g3pre ⟨0, 0⟩ Direction.east
    (by
      intro r
      have hpt : (⟨0, 0⟩ : Point) + Direction.east.delta = (⟨1, 0⟩ : Point) := by decide
      by_cases h1 : r = (⟨0, 0⟩ : Point)
      · subst h1
        have hval : g3pre (⟨0, 0⟩ : Point) = 18 := by decide
        rw [hval]
        norm_num
      · by_cases h2 : r = (⟨1, 0⟩ : Point)
        · subst h2
          have hval : g3pre (⟨1, 0⟩ : Point) = 8 := by decide
          rw [hval]
          norm_num
        · have hz : g3pre r = 0 := by
            unfold g3pre
            rw [setValue, mutateCell_apply_ne _ _ _ _ h1,
              openCorridor_apply_other 2 1 _ ⟨0, 0⟩ Direction.east r h1 (by rw [hpt]; exact h2)]
          rw [hz]
          norm_num)).2 ⟨0, 0⟩

/-! ### The distance labeler never touches cells unreachable from the start -/

theorem mem_measurePushes (w h : Nat) (g : Grid) (c : Point) (dist : Nat)
    (e : Point × Nat) :
    e ∈ measurePushes w h g c dist ↔ ∃ dd : Direction, hasCorridor g c dd ∧
      inBounds w h (c + dd.delta) ∧ cellValue g (c + dd.delta) = 0 ∧
      e = (c + dd.delta, dist + 1) := by
  unfold measurePushes
  rw [List.mem_filterMap]
  constructor
  · rintro ⟨dd, -, hdd⟩
    split_ifs at hdd with hc
    obtain ⟨hc1, hc2, hc3⟩ := hc
    injection hdd with hdd
    exact ⟨dd, hc1, hc2, hc3, hdd.symm⟩
  · rintro ⟨dd, h1, h2, h3, rfl⟩
    refine ⟨dd, mem_allDirections dd, ?_⟩
    rw [if_pos ⟨h1, h2, h3⟩]

/-- Main loop lemma for C9: if corridor bits agree with a reference grid,
every stack cell is in bounds and corridor-reachable from the start, and
every unreachable cell still holds its original value, then the same is true
of the final grid. -/
theorem measureLoop_outside (w h : Nat) (start : Point) (g0 : Grid) :
    ∀ (fuel : Nat) (st : List (Point × Nat)) (g g' : Grid),
      (∀ p dd, hasCorridor g p dd ↔ hasCorridor g0 p dd) →
      (∀ e ∈ st, inBounds w h e.1 ∧ corridorReach w h g0 start e.1) →
      (∀ p, ¬ corridorReach w h g0 start p → g p = g0 p) →
      measureLoop w h fuel st g = some g' →
      ∀ p, ¬ corridorReach w h g0 start p → g' p = g0 p := by
  intro fuel
  induction fuel with
  | zero =>
    intro st g g' hbits hst hout hrun
    cases st with
    | nil =>
      injection hrun with hrun
      subst hrun
      exact hout
    | cons e rest => exact Option.noConfusion hrun
  | succ fuel ih =>
    intro st g g' hbits hst hout hrun
    cases st with
    | nil =>
      injection hrun with hrun
      subst hrun
      exact hout
    | cons e rest =>
      obtain ⟨c, dist⟩ := e
      have hc := hst (c, dist) (List.mem_cons_self _ _)
      rw [measureLoop] at hrun
      refine ih _ _ _ ?_ ?_ ?_ hrun
      · intro p dd
        rw [hasCorridor_setValue]
        exact hbits p dd
      · intro e he
        rw [List.mem_append, List.mem_reverse] at he
        rcases he with he | he
        · rw [mem_measurePushes] at he
          obtain ⟨dd, h1, h2, h3, rfl⟩ := he
          refine ⟨h2, ?_⟩
          refine Relation.ReflTransGen.tail hc.2 ?_
          refine ⟨hc.1, h2, dd, rfl, ?_⟩
          rw [hasCorridor_setValue] at h1
          exact (hbits c dd).mp h1
        · exact hst e (List.mem_cons_of_mem _ he)
      · intro p hp
        have hpc : p ≠ c := by
          intro hEq
          subst hEq
          exact hp hc.2
        rw [setValue, mutateCell_apply_ne _ _ _ _ hpc]
        exact hout p hp

/-- C9: after label(grid, start) completes on any grid with an in-bounds
start, every cell that is not reachable from start via open corridors holds
exactly the value (hence exactly the payload) it held before the call. -/
theorem C9_unreachable_cells_untouched (w h : Nat) (fuel : Nat) (g g' : Grid) (start : Point)
    (hs : inBounds w h start)
    (hrun : measureDistances w h fuel g start = Except.ok (some g')) :
    ∀ p, ¬ corridorReach w h g start p → cellValue g' p = cellValue g p ∧ g' p = g p := by
  unfold measureDistances at hrun
  rw [if_pos hs] at hrun
  injection hrun with hrun
  intro p hp
  have hfix := measureLoop_outside w h start g fuel [(start, 1)] g g' (fun _ _ => Iff.rfl)
    (by
      intro e he
      rw [List.mem_singleton] at he
      subst he
      exact ⟨hs, Relation.ReflTransGen.refl⟩)
    (fun _ _ => rfl) hrun p hp
  constructor
  · unfold cellValue
    rw [hfix]
  · exact hfix

/-- C9 witness: on a corridor-free 2-by-1 grid the cell (1,0) is unreachable
from (0,0) and keeps value 0 after the labeler finishes. -/
theorem C9_unreachable_cells_untouched_witness :
    cellValue (setValue (fun _ => 0) ⟨0, 0⟩ (UInt28.clampedVal 1)) ⟨1, 0⟩ =
      cellValue (fun _ => 0) ⟨1, 0⟩ ∧
    (setValue (fun _ => 0) ⟨0, 0⟩ (UInt28.clampedVal 1)) ⟨1, 0⟩ = 0 :=
  C9_unreachable_cells_untouched 2 1 3 (fun _ => 0)
    (setValue (fun _ => 0) ⟨0, 0⟩ (UInt28.clampedVal 1)) ⟨0, 0⟩ (by decide) rfl ⟨1, 0⟩
    (by
      intro hreach
      have hreach2 : Relation.ReflTransGen (stepAdj 2 1 (fun _ => 0)) ⟨0, 0⟩ ⟨1, 0⟩ := hreach
      rcases Relation.ReflTransGen.cases_head hreach2 with hEq | ⟨c, hstep, -⟩
      · exact absurd hEq (by decide)
      · obtain ⟨-, -, d, -, hcorr⟩ := hstep
        exact hcorr (Nat.zero_and _))

/-! ### Grid coordinates versus the finite vertex type -/

theorem inBounds_mk (w h : Nat) (x y : Int) :
    inBounds w h ⟨x, y⟩ ↔ 0 ≤ x ∧ x < (w : Int) ∧ 0 ≤ y ∧ y < (h : Int) := Iff.rfl

theorem toPoint_inBounds (w h : Nat) (a : Fin w × Fin h) : inBounds w h (toPoint w h a) := by
  unfold toPoint
  rw [inBounds_mk]
  refine ⟨Int.ofNat_nonneg _, ?_, Int.ofNat_nonneg _, ?_⟩
  · exact_mod_cast a.1.isLt
  · exact_mod_cast a.2.isLt

theorem toPoint_toFin (w h : Nat) (p : Point) (hp : inBounds w h p) :
    toPoint w h (toFin w h p hp) = p := by
  obtain ⟨h1, h2, h3, h4⟩ := hp
  unfold toPoint toFin
  exact Point.ext (by simp; omega) (by simp; omega)

theorem toPoint_injective (w h : Nat) (a b : Fin w × Fin h)
    (hEq : toPoint w h a = toPoint w h b) : a = b := by
  have hx := congrArg Point.x hEq
  have hy := congrArg Point.y hEq
  unfold toPoint at hx hy
  simp only at hx hy
  refine Prod.ext (Fin.ext ?_) (Fin.ext ?_) <;> omega

theorem corridorLinked_symm (g : Grid) (p q : Point) (hl : corridorLinked g p q) :
    corridorLinked g q p := by
  obtain ⟨d, rfl, hp, hq⟩ := hl
  exact ⟨d.opposite, (add_delta_opposite p d).symm, hq, by rw [opposite_opposite]; exact hp⟩

theorem corridorGraph_adj_iff (w h : Nat) (g : Grid) (a b : Fin w × Fin h) :
    (corridorGraph w h g).Adj a b ↔ corridorLinked g (toPoint w h a) (toPoint w h b) := by
  constructor
  · rintro (hl | hl)
    · exact hl
    · exact corridorLinked_symm g _ _ hl
  · exact Or.inl

/-! ### The effect of one carve on visited cells, links, edges -/

theorem hasAnyCorridor_openCorridor (w h : Nat) (g : Grid) (c : Point) (d : Direction)
    (hnin : inBounds w h (c + d.delta)) (q : Point) :
    hasAnyCorridor (openCorridor w h g c d) q ↔
      hasAnyCorridor g q ∨ q = c ∨ q = c + d.delta := by
  rw [hasAnyCorridor_iff]
  constructor
  · rintro ⟨e, he⟩
    rcases (hasCorridor_openCorridor w h g c d hnin q e).mp he with hc | ⟨hqc, -⟩ | ⟨hqn, -⟩
    · exact Or.inl ((hasAnyCorridor_iff g q).mpr ⟨e, hc⟩)
    · exact Or.inr (Or.inl hqc)
    · exact Or.inr (Or.inr hqn)
  · rintro (hq | hqc | hqn)
    · obtain ⟨e, he⟩ := (hasAnyCorridor_iff g q).mp hq
      exact ⟨e, hasCorridor_mono_open w h g c d q e he⟩
    · exact ⟨d, (hasCorridor_openCorridor w h g c d hnin q d).mpr (Or.inr (Or.inl ⟨hqc, rfl⟩))⟩
    · exact ⟨d.opposite, (hasCorridor_openCorridor w h g c d hnin q d.opposite).mpr
        (Or.inr (Or.inr ⟨hqn, rfl⟩))⟩

theorem add_delta_right_cancel (p q : Point) (d : Direction) (hEq : p + d.delta = q + d.delta) :
    p = q := by
  have hx := congrArg Point.x hEq
  have hy := congrArg Point.y hEq
  cases d
  case north =>
    have hx2 : p.x + 0 = q.x + 0 := hx
    have hy2 : p.y + -1 = q.y + -1 := hy
    exact Point.ext (by omega) (by omega)
  case east =>
    have hx2 : p.x + 1 = q.x + 1 := hx
    have hy2 : p.y + 0 = q.y + 0 := hy
    exact Point.ext (by omega) (by omega)
  case south =>
    have hx2 : p.x + 0 = q.x + 0 := hx
    have hy2 : p.y + 1 = q.y + 1 := hy
    exact Point.ext (by omega) (by omega)
  case west =>
    have hx2 : p.x + -1 = q.x + -1 := hx
    have hy2 : p.y + 0 = q.y + 0 := hy
    exact Point.ext (by omega) (by omega)

theorem eq_of_add_delta (p q : Point) (d : Direction) (hEq : q = p + d.delta) :
    p = q + d.opposite.delta := by
  rw [hEq, add_delta_opposite]

/-- No corridor flags at all means no corridor in any single direction. -/
theorem not_hasCorridor_of_not_any (g : Grid) (p : Point) (hp : ¬ hasAnyCorridor g p)
    (d : Direction) : ¬ hasCorridor g p d := by
  intro hc
  exact hp ((hasAnyCorridor_iff g p).mpr ⟨d, hc⟩)

theorem corridorLinked_openCorridor (w h : Nat) (g : Grid) (c : Point) (d : Direction)
    (hnin : inBounds w h (c + d.delta)) (hnun : ¬ hasAnyCorridor g (c + d.delta))
    (p q : Point) :
    corridorLinked (openCorridor w h g c d) p q ↔
      corridorLinked g p q ∨ (p = c ∧ q = c + d.delta) ∨ (p = c + d.delta ∧ q = c) := by
  constructor
  · rintro ⟨dd, hq, hp1, hq1⟩
    have hps := (hasCorridor_openCorridor w h g c d hnin p dd).mp hp1
    have hqs := (hasCorridor_openCorridor w h g c d hnin q dd.opposite).mp hq1
    rcases hps with hA | ⟨hpc, hdd⟩ | ⟨hpn, hdd⟩
    · rcases hqs with hA2 | ⟨hqc, hdo⟩ | ⟨hqn, hdo⟩
      · exact Or.inl ⟨dd, hq, hA, hA2⟩
      · have hdd2 : dd = d.opposite := by
          rw [← hdo, opposite_opposite]
        have hpn : p = c + d.delta := by
          have h2 := eq_of_add_delta p q dd hq
          rw [h2, hqc, hdd2, opposite_opposite]
        exact absurd (hpn ▸ hA) (not_hasCorridor_of_not_any g _ hnun dd)
      · have hdd2 : dd = d := by
          have h2 := congrArg Direction.opposite hdo
          rwa [opposite_opposite, opposite_opposite] at h2
        have hpc : p = c := by
          apply add_delta_right_cancel p c dd
          rw [← hq, hqn, hdd2]
        exact Or.inr (Or.inl ⟨hpc, hqn ▸ hq.symm ▸ rfl⟩)
    · refine Or.inr (Or.inl ⟨hpc, ?_⟩)
      rw [hq, hpc, hdd]
    · refine Or.inr (Or.inr ⟨hpn, ?_⟩)
      rw [hq, hpn, hdd, add_delta_opposite]
  · rintro (⟨dd, hq, hp1, hq1⟩ | ⟨hpc, hqn⟩ | ⟨hpn, hqc⟩)
    · exact ⟨dd, hq, hasCorridor_mono_open w h g c d p dd hp1,
        hasCorridor_mono_open w h g c d q dd.opposite hq1⟩
    · refine ⟨d, by rw [hqn, hpc], ?_, ?_⟩
      · exact (hasCorridor_openCorridor w h g c d hnin p d).mpr (Or.inr (Or.inl ⟨hpc, rfl⟩))
      · exact (hasCorridor_openCorridor w h g c d hnin q d.opposite).mpr
          (Or.inr (Or.inr ⟨hqn, rfl⟩))
    · refine ⟨d.opposite, by rw [hqc, hpn, add_delta_opposite], ?_, ?_⟩
      · exact (hasCorridor_openCorridor w h g c d hnin p d.opposite).mpr
          (Or.inr (Or.inr ⟨hpn, rfl⟩))
      · rw [opposite_opposite]
        exact (hasCorridor_openCorridor w h g c d hnin q d).mpr (Or.inr (Or.inl ⟨hqc, rfl⟩))

theorem corridorGraph_adj_openCorridor (w h : Nat) (g : Grid) (c : Point) (d : Direction)
    (hcin : inBounds w h c) (hnin : inBounds w h (c + d.delta))
    (hnun : ¬ hasAnyCorridor g (c + d.delta)) (a b : Fin w × Fin h) :
    (corridorGraph w h (openCorridor w h g c d)).Adj a b ↔
      (corridorGraph w h g).Adj a b ∨
        (a = toFin w h c hcin ∧ b = toFin w h (c + d.delta) hnin) ∨
        (a = toFin w h (c + d.delta) hnin ∧ b = toFin w h c hcin) := by
  have hpc : ∀ e : Fin w × Fin h, toPoint w h e = c ↔ e = toFin w h c hcin := by
    intro e
    constructor
    · intro hEq
      exact toPoint_injective w h _ _ (by rw [hEq, toPoint_toFin])
    · intro hEq
      rw [hEq, toPoint_toFin]
  have hpn : ∀ e : Fin w × Fin h, toPoint w h e = c + d.delta ↔
      e = toFin w h (c + d.delta) hnin := by
    intro e
    constructor
    · intro hEq
      exact toPoint_injective w h _ _ (by rw [hEq, toPoint_toFin])
    · intro hEq
      rw [hEq, toPoint_toFin]
  rw [corridorGraph_adj_iff, corridorGraph_adj_iff,
    corridorLinked_openCorridor w h g c d hnin hnun, hpc a, hpn b, hpn a, hpc b]

/-- The fresh endpoint of a carve is isolated in the old corridor graph. -/
theorem corridorGraph_isolated (w h : Nat) (g : Grid) (n : Point)
    (hnun : ¬ hasAnyCorridor g n) (hn : inBounds w h n) (x : Fin w × Fin h) :
    ¬ (corridorGraph w h g).Adj (toFin w h n hn) x := by
  intro hadj
  rw [corridorGraph_adj_iff] at hadj
  obtain ⟨dd, -, hbit, -⟩ := hadj
  rw [toPoint_toFin] at hbit
  exact not_hasCorridor_of_not_any g n hnun dd hbit

theorem corridorGraph_edgeFinset_openCorridor (w h : Nat) (g : Grid) (c : Point) (d : Direction)
    (hcin : inBounds w h c) (hnin : inBounds w h (c + d.delta))
    (hnun : ¬ hasAnyCorridor g (c + d.delta)) :
    (corridorGraph w h (openCorridor w h g c d)).edgeFinset =
      insert s(toFin w h c hcin, toFin w h (c + d.delta) hnin)
        (corridorGraph w h g).edgeFinset := by
  ext e
  induction e using Sym2.ind with
  | _ a b =>
    rw [SimpleGraph.mem_edgeFinset, Finset.mem_insert, SimpleGraph.mem_edgeFinset,
      SimpleGraph.mem_edgeSet, SimpleGraph.mem_edgeSet,
      corridorGraph_adj_openCorridor w h g c d hcin hnin hnun, Sym2.eq_iff]
    tauto

theorem corridorGraph_new_edge_not_mem (w h : Nat) (g : Grid) (c : Point) (d : Direction)
    (hcin : inBounds w h c) (hnin : inBounds w h (c + d.delta))
    (hnun : ¬ hasAnyCorridor g (c + d.delta)) :
    s(toFin w h c hcin, toFin w h (c + d.delta) hnin) ∉ (corridorGraph w h g).edgeFinset := by
  rw [SimpleGraph.mem_edgeFinset, SimpleGraph.mem_edgeSet]
  intro hadj
  exact corridorGraph_isolated w h g (c + d.delta) hnun hnin _ hadj.symm

/-! ### Acyclicity is preserved when a corridor reaches an isolated cell -/

theorem walk_exists_last_edge {V : Type} {G2 : SimpleGraph V} :
    ∀ {u n : V} (W : G2.Walk u n), u ≠ n → ∃ y, G2.Adj y n ∧ s(y, n) ∈ W.edges := by
  intro u n W
  induction W with
  | nil => intro hne; exact absurd rfl hne
  | cons hadj rest ih =>
    rename_i u2 v2 w2
    intro hne
    rcases eq_or_ne v2 w2 with rfl | hvn
    · exact ⟨u2, hadj, by simp⟩
    · obtain ⟨y, hy, hmem⟩ := ih hvn
      exact ⟨y, hy, by simp [hmem]⟩

theorem no_cycle_at_pendant {V : Type} {G G2 : SimpleGraph V} {c n : V}
    (hAdjIff : ∀ a b, G2.Adj a b ↔ G.Adj a b ∨ (a = c ∧ b = n) ∨ (a = n ∧ b = c))
    (hn : ∀ x, ¬ G.Adj n x) (hnc : n ≠ c) :
    ∀ (cyc : G2.Walk n n), ¬ cyc.IsCycle := by
  intro cyc hcyc
  cases cyc with
  | nil => exact hcyc.ne_nil rfl
  | cons hadj rest =>
    rename_i v
    have hvc : v = c := by
      rcases (hAdjIff n v).mp hadj with hA | ⟨hEq, -⟩ | ⟨-, hEq⟩
      · exact absurd hA (hn v)
      · exact absurd hEq hnc
      · exact hEq
    obtain ⟨y, hy, hmem⟩ := walk_exists_last_edge rest (by rw [hvc]; exact Ne.symm hnc)
    have hyc : y = c := by
      rcases (hAdjIff y n).mp hy with hA | ⟨hEq, -⟩ | ⟨-, hEq⟩
      · exact absurd hA.symm (hn y)
      · exact hEq
      · exact absurd hEq hnc
    have hnodup := hcyc.isCircuit.isTrail.edges_nodup
    rw [SimpleGraph.Walk.edges_cons, List.nodup_cons] at hnodup
    refine hnodup.1 ?_
    rw [hyc, ← hvc, Sym2.eq_swap] at hmem
    exact hmem

theorem isAcyclic_extend {V : Type} [DecidableEq V] {G G2 : SimpleGraph V} {c n : V}
    (hAdjIff : ∀ a b, G2.Adj a b ↔ G.Adj a b ∨ (a = c ∧ b = n) ∨ (a = n ∧ b = c))
    (hn : ∀ x, ¬ G.Adj n x) (hnc : n ≠ c) (hG : G.IsAcyclic) : G2.IsAcyclic := by
  intro v cyc hcyc
  by_cases hmem : n ∈ cyc.support
  · exact no_cycle_at_pendant hAdjIff hn hnc (cyc.rotate hmem) (hcyc.rotate hmem)
  · have hsub : ∀ e ∈ cyc.edges, e ∈ G.edgeSet := by
      intro e
      induction e using Sym2.ind with
      | _ a b =>
        intro he
        have hadj : G2.Adj a b := cyc.adj_of_mem_edges he
        rcases (hAdjIff a b).mp hadj with hA | ⟨-, hbn⟩ | ⟨han, -⟩
        · exact hA
        · exact absurd (hbn ▸ SimpleGraph.Walk.snd_mem_support_of_mem_edges cyc he) hmem
        · exact absurd (han ▸ SimpleGraph.Walk.fst_mem_support_of_mem_edges cyc he) hmem
    exact hG (cyc.transfer G hsub) (hcyc.transfer hsub)

/-! ### The builder loop invariant -/

theorem findCarve_some (w h : Nat) (g : Grid) (c : Point) (dirs : List Direction) (d : Direction)
    (hf : findCarve w h g c dirs = some d) :
    inBounds w h (c + d.delta) ∧ ¬ hasAnyCorridor g (c + d.delta) := by
  have hp := List.find?_some hf
  simp only [Bool.and_eq_true, Bool.not_eq_true', decide_eq_true_eq,
    decide_eq_false_iff_not] at hp
  exact hp

theorem findCarve_none (w h : Nat) (g : Grid) (c : Point) (dirs : List Direction)
    (hf : findCarve w h g c dirs = none) :
    ∀ d ∈ dirs, inBounds w h (c + d.delta) → hasAnyCorridor g (c + d.delta) := by
  intro d hd hin
  have hp := List.find?_eq_none.mp hf d hd
  simp only [Bool.and_eq_true, Bool.not_eq_true', decide_eq_true_eq,
    decide_eq_false_iff_not, not_and, not_not] at hp
  exact hp hin

theorem buildInv_drop (w h : Nat) (start c : Point) (dirs : List Direction)
    (rest : List (Point × List Direction)) (g : Grid)
    (hInv : BuildInv w h start ((c, dirs) :: rest) g)
    (hfind : findCarve w h g c dirs = none) : BuildInv w h start rest g where
  stackIn := fun f hf => hInv.stackIn f (List.mem_cons_of_mem _ hf)
  stackV := fun f hf => hInv.stackV f (List.mem_cons_of_mem _ hf)
  stackDirs := fun f hf => hInv.stackDirs f (List.mem_cons_of_mem _ hf)
  expanded := by
    intro p hp hv hfr d hd
    rcases eq_or_ne c p with rfl | hcp
    · exact Or.inl (findCarve_none w h g c dirs hfind d
        (hInv.stackDirs (c, dirs) (List.mem_cons_self _ _) d) hd)
    · refine hInv.expanded p hp hv ?_ d hd
      intro f hf
      rcases List.mem_cons.mp hf with rfl | hf2
      · exact hcp
      · exact hfr f hf2
  corrIn := hInv.corrIn
  startSeed := hInv.startSeed
  edgeCount := hInv.edgeCount
  reach := hInv.reach
  acyclic := hInv.acyclic

theorem buildInv_carve (w h : Nat) (start c : Point) (dirs newdirs : List Direction)
    (rest : List (Point × List Direction)) (g : Grid) (d : Direction)
    (hInv : BuildInv w h start ((c, dirs) :: rest) g)
    (hfind : findCarve w h g c dirs = some d)
    (hnew : ∀ dd : Direction, dd ∈ newdirs) :
    BuildInv w h start ((c + d.delta, newdirs) :: (c, dirs) :: rest) (openCorridor w h g c d) := by
  obtain ⟨hnin, hnun⟩ := findCarve_some w h g c dirs d hfind
  have hcin : inBounds w h c := hInv.stackIn (c, dirs) (List.mem_cons_self _ _)
  have hcV : inV start g c := hInv.stackV (c, dirs) (List.mem_cons_self _ _)
  have hnstart : c + d.delta ≠ start := by
    rcases hInv.startSeed with hnone | hyes
    · have hcs : c = start := by
        rcases hcV with hany | hcs
        · exact absurd hany (hnone c)
        · exact hcs
      rw [← hcs]
      exact add_delta_ne c d
    · intro hEq
      exact hnun (hEq ▸ hyes)
  have hnV : ¬ inV start g (c + d.delta) := by
    rintro (hany | hs)
    · exact hnun hany
    · exact hnstart hs
  have hV2 : ∀ p, inV start (openCorridor w h g c d) p ↔ inV start g p ∨ p = c + d.delta := by
    intro p
    unfold inV
    rw [hasAnyCorridor_openCorridor w h g c d hnin]
    constructor
    · rintro ((hp | hpc | hpn) | hps)
      · exact Or.inl (Or.inl hp)
      · refine Or.inl ?_
        rw [hpc]
        exact hcV
      · exact Or.inr hpn
      · exact Or.inl (Or.inr hps)
    · rintro ((hp | hps) | hpn)
      · exact Or.inl (Or.inl hp)
      · exact Or.inr hps
      · exact Or.inl (Or.inr (Or.inr hpn))
  have hle : corridorGraph w h g ≤ corridorGraph w h (openCorridor w h g c d) := by
    intro a b hadj
    exact (corridorGraph_adj_openCorridor w h g c d hcin hnin hnun a b).mpr (Or.inl hadj)
  have hnFcF : toFin w h (c + d.delta) hnin ≠ toFin w h c hcin := by
    intro hEq
    have h2 : c + d.delta = c := by
      have h3 := congrArg (toPoint w h) hEq
      rwa [toPoint_toFin, toPoint_toFin] at h3
    exact add_delta_ne c d h2
  refine ⟨?_, ?_, ?_, ?_, ?_, ?_, ?_, ?_, ?_⟩
  · rintro f hf
    rcases List.mem_cons.mp hf with rfl | hf2
    · exact hnin
    · exact hInv.stackIn f hf2
  · rintro f hf
    rcases List.mem_cons.mp hf with rfl | hf2
    · exact (hV2 _).mpr (Or.inr rfl)
    · exact (hV2 _).mpr (Or.inl (hInv.stackV f hf2))
  · rintro f hf
    rcases List.mem_cons.mp hf with rfl | hf2
    · exact fun dd => hnew dd
    · exact hInv.stackDirs f hf2
  · intro p hp hv hfr dd hd
    have hpn : p ≠ c + d.delta := fun hEq =>
      hfr (c + d.delta, newdirs) (List.mem_cons_self _ _) hEq.symm
    have hpc : p ≠ c := fun hEq =>
      hfr (c, dirs) (List.mem_cons_of_mem _ (List.mem_cons_self _ _)) hEq.symm
    have hvold : inV start g p := by
      rcases (hV2 p).mp hv with hvo | hEq
      · exact hvo
      · exact absurd hEq hpn
    refine (hV2 _).mpr (Or.inl ?_)
    refine hInv.expanded p hp hvold ?_ dd hd
    intro f hf
    rcases List.mem_cons.mp hf with rfl | hf2
    · exact hpc.symm
    · exact hfr f (List.mem_cons_of_mem _ (List.mem_cons_of_mem _ hf2))
  · intro p dd hc
    rcases (hasCorridor_openCorridor w h g c d hnin p dd).mp hc with hold | ⟨hpc, hdd⟩ | ⟨hpn, hdd⟩
    · obtain ⟨h1, h2, h3⟩ := hInv.corrIn p dd hold
      exact ⟨h1, h2, hasCorridor_mono_open w h g c d _ _ h3⟩
    · refine ⟨hpc ▸ hcin, ?_, ?_⟩
      · rw [hpc, hdd]
        exact hnin
      · refine (hasCorridor_openCorridor w h g c d hnin _ _).mpr (Or.inr (Or.inr ⟨?_, ?_⟩))
        · rw [hpc, hdd]
        · rw [hdd]
    · refine ⟨hpn ▸ hnin, ?_, ?_⟩
      · rw [hpn, hdd, add_delta_opposite]
        exact hcin
      · refine (hasCorridor_openCorridor w h g c d hnin _ _).mpr (Or.inr (Or.inl ⟨?_, ?_⟩))
        · rw [hpn, hdd, add_delta_opposite]
        · rw [hdd, opposite_opposite]
  · refine Or.inr ?_
    rcases hInv.startSeed with hnone | hyes
    · have hcs : c = start := by
        rcases hcV with hany | hcs
        · exact absurd hany (hnone c)
        · exact hcs
      rw [hasAnyCorridor_openCorridor w h g c d hnin]
      exact Or.inr (Or.inl hcs.symm)
    · rw [hasAnyCorridor_openCorridor w h g c d hnin]
      exact Or.inl hyes
  · rw [corridorGraph_edgeFinset_openCorridor w h g c d hcin hnin hnun,
      Finset.card_insert_of_not_mem (corridorGraph_new_edge_not_mem w h g c d hcin hnin hnun)]
    have hfil : Finset.univ.filter
        (fun a : Fin w × Fin h => inV start (openCorridor w h g c d) (toPoint w h a)) =
        insert (toFin w h (c + d.delta) hnin)
          (Finset.univ.filter (fun a : Fin w × Fin h => inV start g (toPoint w h a))) := by
      ext a
      simp only [Finset.mem_insert, Finset.mem_filter, Finset.mem_univ, true_and]
      rw [hV2]
      constructor
      · rintro (hv | hpn)
        · exact Or.inr hv
        · refine Or.inl (toPoint_injective w h _ _ ?_)
          rw [hpn, toPoint_toFin]
      · rintro (rfl | hv)
        · exact Or.inr (by rw [toPoint_toFin])
        · exact Or.inl hv
    rw [hfil, Finset.card_insert_of_not_mem (by
      intro hmem
      rw [Finset.mem_filter] at hmem
      rw [toPoint_toFin] at hmem
      exact hnV hmem.2)]
    have := hInv.edgeCount
    omega
  · intro a b ha hb
    have hcF : inV start g (toPoint w h (toFin w h c hcin)) := by
      rw [toPoint_toFin]
      exact hcV
    have hR : ∀ e : Fin w × Fin h, inV start (openCorridor w h g c d) (toPoint w h e) →
        (corridorGraph w h (openCorridor w h g c d)).Reachable e (toFin w h c hcin) := by
      intro e he
      rcases (hV2 _).mp he with hv | hn2
      · exact SimpleGraph.Reachable.mono hle (hInv.reach e _ hv hcF)
      · have heF : e = toFin w h (c + d.delta) hnin := by
          refine toPoint_injective w h _ _ ?_
          rw [hn2, toPoint_toFin]
        subst heF
        exact SimpleGraph.Adj.reachable
          ((corridorGraph_adj_openCorridor w h g c d hcin hnin hnun _ _).mpr
            (Or.inr (Or.inr ⟨rfl, rfl⟩)))
    exact (hR a ha).trans (hR b hb).symm
  · refine isAcyclic_extend (corridorGraph_adj_openCorridor w h g c d hcin hnin hnun) ?_
      hnFcF hInv.acyclic
    exact corridorGraph_isolated w h g (c + d.delta) hnun hnin

theorem corridorGraph_zero (w h : Nat) : corridorGraph w h (fun _ => 0) = ⊥ := by
  ext a b
  simp only [SimpleGraph.bot_adj, iff_false]
  rintro (⟨dd, -, hbit, -⟩ | ⟨dd, -, hbit, -⟩) <;> exact hbit (Nat.zero_and _)

theorem buildInv_init (w h : Nat) (start : Point) (dirs0 : List Direction)
    (hdirs0 : ∀ dd : Direction, dd ∈ dirs0) (hs : inBounds w h start) :
    BuildInv w h start [(start, dirs0)] (fun _ => 0) where
  stackIn := by
    rintro f hf
    rw [List.mem_singleton] at hf
    subst hf
    exact hs
  stackV := by
    rintro f hf
    rw [List.mem_singleton] at hf
    subst hf
    exact Or.inr rfl
  stackDirs := by
    rintro f hf
    rw [List.mem_singleton] at hf
    subst hf
    exact hdirs0
  expanded := by
    intro p hp hv hfr dd hd
    exfalso
    rcases hv with hany | hps
    · exact hany (Nat.zero_and _)
    · exact hfr (start, dirs0) (List.mem_singleton_self _) (by rw [hps])
  corrIn := by
    intro p dd hc
    exact absurd (Nat.zero_and _) hc
  startSeed := Or.inl (fun p hany => hany (Nat.zero_and _))
  edgeCount := by
    have hfil : Finset.univ.filter
        (fun a : Fin w × Fin h => inV start (fun _ => 0) (toPoint w h a)) =
        {toFin w h start hs} := by
      ext a
      simp only [Finset.mem_filter, Finset.mem_univ, true_and, Finset.mem_singleton]
      constructor
      · rintro (hany | hps)
        · exact absurd (Nat.zero_and _) hany
        · exact toPoint_injective w h _ _ (by rw [hps, toPoint_toFin])
      · rintro rfl
        exact Or.inr (by rw [toPoint_toFin])
    have hemp : (corridorGraph w h (fun _ => 0)).edgeFinset = ∅ := by
      rw [Finset.eq_empty_iff_forall_not_mem]
      intro e
      induction e using Sym2.ind with
      | _ a b =>
        rw [SimpleGraph.mem_edgeFinset, SimpleGraph.mem_edgeSet]
        rintro (⟨dd, -, hbit, -⟩ | ⟨dd, -, hbit, -⟩) <;> exact hbit (Nat.zero_and _)
    rw [hemp, hfil]
    simp
  reach := by
    intro a b ha hb
    have haE : a = toFin w h start hs := by
      rcases ha with hany | hps
      · exact absurd (Nat.zero_and _) hany
      · exact toPoint_injective w h _ _ (by rw [hps, toPoint_toFin])
    have hbE : b = toFin w h start hs := by
      rcases hb with hany | hps
      · exact absurd (Nat.zero_and _) hany
      · exact toPoint_injective w h _ _ (by rw [hps, toPoint_toFin])
    rw [haE, hbE]
  acyclic := by
    rw [corridorGraph_zero]
    exact SimpleGraph.isAcyclic_bot

theorem buildLoop_inv (w h : Nat) (gen : Nat → List Direction) (start : Point)
    (hgen : ∀ k, ∀ dd : Direction, dd ∈ gen k) :
    ∀ (fuel k : Nat) (st : List (Point × List Direction)) (g g' : Grid),
      BuildInv w h start st g → buildLoop w h gen fuel k st g = some g' →
      BuildInv w h start [] g' := by
  intro fuel
  induction fuel with
  | zero =>
    intro k st g g' hInv hrun
    cases st with
    | nil =>
      injection hrun with hrun
      subst hrun
      exact hInv
    | cons f rest => exact Option.noConfusion hrun
  | succ fuel ih =>
    intro k st g g' hInv hrun
    cases st with
    | nil =>
      injection hrun with hrun
      subst hrun
      exact hInv
    | cons f rest =>
      obtain ⟨c, dirs⟩ := f
      rw [buildLoop] at hrun
      cases hfind : findCarve w h g c dirs with
      | some d =>
        rw [hfind] at hrun
        exact ih _ _ _ _
          (buildInv_carve w h start c dirs (gen k) rest g d hInv hfind (hgen k)) hrun
      | none =>
        rw [hfind] at hrun
        exact ih _ _ _ _ (buildInv_drop w h start c dirs rest g hInv hfind) hrun

theorem buildLoop_isSome (w h : Nat) (gen : Nat → List Direction) :
    ∀ (fuel k : Nat) (st : List (Point × List Direction)) (g : Grid),
      2 * (Finset.univ.filter
        (fun a : Fin w × Fin h => ¬ hasAnyCorridor g (toPoint w h a))).card + st.length < fuel →
      (buildLoop w h gen fuel k st g).isSome = true := by
  intro fuel
  induction fuel with
  | zero =>
    intro k st g hlt
    omega
  | succ fuel ih =>
    intro k st g hlt
    cases st with
    | nil => rfl
    | cons f rest =>
      obtain ⟨c, dirs⟩ := f
      rw [buildLoop]
      cases hfind : findCarve w h g c dirs with
      | some d =>
        obtain ⟨hnin, hnun⟩ := findCarve_some w h g c dirs d hfind
        have hmem : toFin w h (c + d.delta) hnin ∈ Finset.univ.filter
            (fun a : Fin w × Fin h => ¬ hasAnyCorridor g (toPoint w h a)) := by
          rw [Finset.mem_filter]
          refine ⟨Finset.mem_univ _, ?_⟩
          rw [toPoint_toFin]
          exact hnun
        have hsub : Finset.univ.filter (fun a : Fin w × Fin h =>
            ¬ hasAnyCorridor (openCorridor w h g c d) (toPoint w h a)) ⊆
            (Finset.univ.filter
              (fun a : Fin w × Fin h => ¬ hasAnyCorridor g (toPoint w h a))).erase
              (toFin w h (c + d.delta) hnin) := by
          intro a ha
          rw [Finset.mem_filter] at ha
          rw [Finset.mem_erase, Finset.mem_filter]
          refine ⟨?_, Finset.mem_univ _, ?_⟩
          · intro hEq
            apply ha.2
            rw [hEq, toPoint_toFin, hasAnyCorridor_openCorridor w h g c d hnin]
            exact Or.inr (Or.inr rfl)
          · intro hany
            exact ha.2 (hasAnyCorridor_mono_open w h g c d _ hany)
        have hdrop : (Finset.univ.filter (fun a : Fin w × Fin h =>
            ¬ hasAnyCorridor (openCorridor w h g c d) (toPoint w h a))).card + 1 ≤
            (Finset.univ.filter
              (fun a : Fin w × Fin h => ¬ hasAnyCorridor g (toPoint w h a))).card := by
          have h1 := Finset.card_le_card hsub
          rw [Finset.card_erase_of_mem hmem] at h1
          have h2 : 0 < (Finset.univ.filter
              (fun a : Fin w × Fin h => ¬ hasAnyCorridor g (toPoint w h a))).card :=
            Finset.card_pos.mpr ⟨_, hmem⟩
          omega
        apply ih
        simp only [List.length_cons] at hlt ⊢
        omega
      | none =>
        apply ih
        simp only [List.length_cons] at hlt
        omega

/-! ### Every cell is reached: marching through the grid -/

theorem march_east (w h : Nat) (start : Point) (g : Grid)
    (hstep : ∀ p, inBounds w h p → inV start g p → ∀ d : Direction,
      inBounds w h (p + d.delta) → inV start g (p + d.delta)) :
    ∀ (n : Nat) (x y : Int), inBounds w h ⟨x, y⟩ → inV start g ⟨x, y⟩ →
      inBounds w h ⟨x + (n : Int), y⟩ → inV start g ⟨x + (n : Int), y⟩ := by
  intro n
  induction n with
  | zero =>
    intro x y hp hv hq
    have hEq : (⟨x + ((0 : Nat) : Int), y⟩ : Point) = ⟨x, y⟩ :=
      Point.ext (show x + ((0 : Nat) : Int) = x by omega) rfl
    rwa [hEq]
  | succ k ih =>
    intro x y hp hv hq
    have hq2 := (inBounds_mk w h _ _).mp hq
    have hp2 := (inBounds_mk w h _ _).mp hp
    have hmid : inBounds w h ⟨x + (k : Int), y⟩ := by
      rw [inBounds_mk]
      push_cast at hq2
      omega
    have hvmid : inV start g ⟨x + (k : Int), y⟩ := ih x y hp hv hmid
    have hstep2 := hstep ⟨x + (k : Int), y⟩ hmid hvmid Direction.east
    have hEq : (⟨x + (k : Int), y⟩ : Point) + Direction.east.delta =
        ⟨x + ((k + 1 : Nat) : Int), y⟩ := by
      refine Point.ext ?_ ?_
      · show x + (k : Int) + 1 = x + ((k + 1 : Nat) : Int)
        push_cast
        ring
      · show y + 0 = y
        omega
    rw [hEq] at hstep2
    exact hstep2 hq

theorem march_west (w h : Nat) (start : Point) (g : Grid)
    (hstep : ∀ p, inBounds w h p → inV start g p → ∀ d : Direction,
      inBounds w h (p + d.delta) → inV start g (p + d.delta)) :
    ∀ (n : Nat) (x y : Int), inBounds w h ⟨x, y⟩ → inV start g ⟨x, y⟩ →
      inBounds w h ⟨x - (n : Int), y⟩ → inV start g ⟨x - (n : Int), y⟩ := by
  intro n
  induction n with
  | zero =>
    intro x y hp hv hq
    have hEq : (⟨x - ((0 : Nat) : Int), y⟩ : Point) = ⟨x, y⟩ :=
      Point.ext (show x - ((0 : Nat) : Int) = x by omega) rfl
    rwa [hEq]
  | succ k ih =>
    intro x y hp hv hq
    have hq2 := (inBounds_mk w h _ _).mp hq
    have hp2 := (inBounds_mk w h _ _).mp hp
    have hmid : inBounds w h ⟨x - (k : Int), y⟩ := by
      rw [inBounds_mk]
      push_cast at hq2
      omega
    have hvmid : inV start g ⟨x - (k : Int), y⟩ := ih x y hp hv hmid
    have hstep2 := hstep ⟨x - (k : Int), y⟩ hmid hvmid Direction.west
    have hEq : (⟨x - (k : Int), y⟩ : Point) + Direction.west.delta =
        ⟨x - ((k + 1 : Nat) : Int), y⟩ := by
      refine Point.ext ?_ ?_
      · show x - (k : Int) + -1 = x - ((k + 1 : Nat) : Int)
        push_cast
        ring
      · show y + 0 = y
        omega
    rw [hEq] at hstep2
    exact hstep2 hq

theorem march_south (w h : Nat) (start : Point) (g : Grid)
    (hstep : ∀ p, inBounds w h p → inV start g p → ∀ d : Direction,
      inBounds w h (p + d.delta) → inV start g (p + d.delta)) :
    ∀ (n : Nat) (x y : Int), inBounds w h ⟨x, y⟩ → inV start g ⟨x, y⟩ →
      inBounds w h ⟨x, y + (n : Int)⟩ → inV start g ⟨x, y + (n : Int)⟩ := by
  intro n
  induction n with
  | zero =>
    intro x y hp hv hq
    have hEq : (⟨x, y + ((0 : Nat) : Int)⟩ : Point) = ⟨x, y⟩ :=
      Point.ext rfl (show y + ((0 : Nat) : Int) = y by omega)
    rwa [hEq]
  | succ k ih =>
    intro x y hp hv hq
    have hq2 := (inBounds_mk w h _ _).mp hq
    have hp2 := (inBounds_mk w h _ _).mp hp
    have hmid : inBounds w h ⟨x, y + (k : Int)⟩ := by
      rw [inBounds_mk]
      push_cast at hq2
      omega
    have hvmid : inV start g ⟨x, y + (k : Int)⟩ := ih x y hp hv hmid
    have hstep2 := hstep ⟨x, y + (k : Int)⟩ hmid hvmid Direction.south
    have hEq : (⟨x, y + (k : Int)⟩ : Point) + Direction.south.delta =
        ⟨x, y + ((k + 1 : Nat) : Int)⟩ := by
      refine Point.ext ?_ ?_
      · show x + 0 = x
        omega
      · show y + (k : Int) + 1 = y + ((k + 1 : Nat) : Int)
        push_cast
        ring
    rw [hEq] at hstep2
    exact hstep2 hq

theorem march_north (w h : Nat) (start : Point) (g : Grid)
    (hstep : ∀ p, inBounds w h p → inV start g p → ∀ d : Direction,
      inBounds w h (p + d.delta) → inV start g (p + d.delta)) :
    ∀ (n : Nat) (x y : Int), inBounds w h ⟨x, y⟩ → inV start g ⟨x, y⟩ →
      inBounds w h ⟨x, y - (n : Int)⟩ → inV start g ⟨x, y - (n : Int)⟩ := by
  intro n
  induction n with
  | zero =>
    intro x y hp hv hq
    have hEq : (⟨x, y - ((0 : Nat) : Int)⟩ : Point) = ⟨x, y⟩ :=
      Point.ext rfl (show y - ((0 : Nat) : Int) = y by omega)
    rwa [hEq]
  | succ k ih =>
    intro x y hp hv hq
    have hq2 := (inBounds_mk w h _ _).mp hq
    have hp2 := (inBounds_mk w h _ _).mp hp
    have hmid : inBounds w h ⟨x, y - (k : Int)⟩ := by
      rw [inBounds_mk]
      push_cast at hq2
      omega
    have hvmid : inV start g ⟨x, y - (k : Int)⟩ := ih x y hp hv hmid
    have hstep2 := hstep ⟨x, y - (k : Int)⟩ hmid hvmid Direction.north
    have hEq : (⟨x, y - (k : Int)⟩ : Point) + Direction.north.delta =
        ⟨x, y - ((k + 1 : Nat) : Int)⟩ := by
      refine Point.ext ?_ ?_
      · show x + 0 = x
        omega
      · show y - (k : Int) + -1 = y - ((k + 1 : Nat) : Int)
        push_cast
        ring
    rw [hEq] at hstep2
    exact hstep2 hq

theorem buildInv_allV (w h : Nat) (start : Point) (g : Grid) (hs : inBounds w h start)
    (hInv : BuildInv w h start [] g) : ∀ p, inBounds w h p → inV start g p := by
  have hstep : ∀ p, inBounds w h p → inV start g p → ∀ d : Direction,
      inBounds w h (p + d.delta) → inV start g (p + d.delta) := by
    intro p hp hv d hd
    refine hInv.expanded p hp hv ?_ d hd
    intro f hf
    exact absurd hf (List.not_mem_nil f)
  intro p hp
  have hvstart : inV start g start := Or.inr rfl
  have hp2 := (inBounds_mk w h p.x p.y).mp hp
  have hs2 := (inBounds_mk w h start.x start.y).mp hs
  have hmb : inBounds w h ⟨p.x, start.y⟩ := by
    rw [inBounds_mk]
    omega
  have hv1 : inV start g ⟨p.x, start.y⟩ := by
    rcases le_or_lt start.x p.x with hxle | hxlt
    · have hEq : (⟨start.x + (((p.x - start.x).toNat : Nat) : Int), start.y⟩ : Point) =
          ⟨p.x, start.y⟩ :=
        Point.ext (show start.x + (((p.x - start.x).toNat : Nat) : Int) = p.x by omega) rfl
      have := march_east w h start g hstep (p.x - start.x).toNat start.x start.y hs hvstart
        (by rw [hEq]; exact hmb)
      rwa [hEq] at this
    · have hEq : (⟨start.x - (((start.x - p.x).toNat : Nat) : Int), start.y⟩ : Point) =
          ⟨p.x, start.y⟩ :=
        Point.ext (show start.x - (((start.x - p.x).toNat : Nat) : Int) = p.x by omega) rfl
      have := march_west w h start g hstep (start.x - p.x).toNat start.x start.y hs hvstart
        (by rw [hEq]; exact hmb)
      rwa [hEq] at this
  have hv2 : inV start g ⟨p.x, p.y⟩ := by
    rcases le_or_lt start.y p.y with hyle | hylt
    · have hEq : (⟨p.x, start.y + (((p.y - start.y).toNat : Nat) : Int)⟩ : Point) =
          ⟨p.x, p.y⟩ :=
        Point.ext rfl (show start.y + (((p.y - start.y).toNat : Nat) : Int) = p.y by omega)
      have := march_south w h start g hstep (p.y - start.y).toNat p.x start.y hmb hv1
        (by rw [hEq]; exact hp)
      rwa [hEq] at this
    · have hEq : (⟨p.x, start.y - (((start.y - p.y).toNat : Nat) : Int)⟩ : Point) =
          ⟨p.x, p.y⟩ :=
        Point.ext rfl (show start.y - (((start.y - p.y).toNat : Nat) : Int) = p.y by omega)
      have := march_north w h start g hstep (start.y - p.y).toNat p.x start.y hmb hv1
        (by rw [hEq]; exact hp)
      rwa [hEq] at this
  exact hv2

theorem buildInv_final (w h : Nat) (start : Point) (g : Grid)
    (hs : inBounds w h start) (hInv : BuildInv w h start [] g) :
    (1 < w * h → ∀ p, inBounds w h p → hasAnyCorridor g p) ∧
    (corridorGraph w h g).edgeFinset.card = w * h - 1 ∧
    (corridorGraph w h g).IsAcyclic := by
  have hall := buildInv_allV w h start g hs hInv
  have hfil : Finset.univ.filter (fun a : Fin w × Fin h => inV start g (toPoint w h a)) =
      Finset.univ := by
    rw [Finset.filter_eq_self]
    intro a _
    exact hall _ (toPoint_inBounds w h a)
  have hcount : (corridorGraph w h g).edgeFinset.card + 1 = w * h := by
    have hc := hInv.edgeCount
    rw [hfil] at hc
    have h2 : (Finset.univ : Finset (Fin w × Fin h)).card = w * h := by
      simp [Finset.card_univ]
    rw [h2] at hc
    exact hc
  refine ⟨?_, by omega, hInv.acyclic⟩
  intro hwh p hp
  rcases hall p hp with hany | hps
  · exact hany
  · rcases hInv.startSeed with hnone | hyes
    · exfalso
      have hemp : (corridorGraph w h g).edgeFinset = ∅ := by
        rw [Finset.eq_empty_iff_forall_not_mem]
        intro e
        induction e using Sym2.ind with
        | _ a b =>
          rw [SimpleGraph.mem_edgeFinset, SimpleGraph.mem_edgeSet]
          rintro (⟨dd, -, hbit, -⟩ | ⟨dd, -, hbit, -⟩) <;>
            exact hnone _ ((hasAnyCorridor_iff g _).mpr ⟨dd, hbit⟩)
      rw [hemp] at hcount
      simp at hcount
      omega
    · rw [hps]
      exact hyes

/-- C1: on a fresh W-by-H grid (W, H >= 1) with an in-bounds start, for any
direction lists drawn from the random source (each a permutation of the four
directions), build terminates, and after it completes every cell has a
carved corridor (except in the 1-cell case), the number of open corridor
pairs is exactly W*H - 1, and the corridor graph is acyclic. -/
theorem C1_build_spanning_tree (w h : Nat) (gen : Nat → List Direction) (start : Point)
    (hgen : ∀ k, List.Perm (gen k) allDirections)
    (hw : 1 ≤ w) (hh : 1 ≤ h) (hs : inBounds w h start) :
    (∃ fuel g', build w h gen fuel (fun _ => 0) start = Except.ok (some g')) ∧
    ∀ fuel g', build w h gen fuel (fun _ => 0) start = Except.ok (some g') →
      (1 < w * h → ∀ p, inBounds w h p → hasAnyCorridor g' p) ∧
      (corridorGraph w h g').edgeFinset.card = w * h - 1 ∧
      (corridorGraph w h g').IsAcyclic := by
  have hgen2 : ∀ k, ∀ dd : Direction, dd ∈ gen k :=
    fun k dd => ((hgen k).mem_iff).mpr (mem_allDirections dd)
  constructor
  · have hS : (buildLoop w h gen (2 * (w * h) + 2) 1 [(start, gen 0)]
        (fun _ => 0)).isSome = true := by
      apply buildLoop_isSome
      have hle : (Finset.univ.filter (fun a : Fin w × Fin h =>
          ¬ hasAnyCorridor (fun _ => (0 : Nat)) (toPoint w h a))).card ≤ w * h := by
        calc (Finset.univ.filter (fun a : Fin w × Fin h =>
              ¬ hasAnyCorridor (fun _ => (0 : Nat)) (toPoint w h a))).card
            ≤ (Finset.univ : Finset (Fin w × Fin h)).card := Finset.card_filter_le _ _
          _ = w * h := by simp [Finset.card_univ]
      simp only [List.length_cons, List.length_nil]
      omega
    rw [Option.isSome_iff_exists] at hS
    obtain ⟨g', hg'⟩ := hS
    refine ⟨2 * (w * h) + 2, g', ?_⟩
    unfold build
    rw [if_pos hs, hg']
  · intro fuel g' hrun
    unfold build at hrun
    rw [if_pos hs] at hrun
    injection hrun with hrun
    have hfin := buildLoop_inv w h gen start hgen2 fuel 1 [(start, gen 0)] (fun _ => 0) g'
      (buildInv_init w h start (gen 0) (hgen2 0) hs) hrun
    exact buildInv_final w h start g' hs hfin

/-- C1 witness: the theorem applied on a fresh 2-by-1 grid, start (0,0), the
constant direction source, fuel 9 (the run carves exactly the single corridor
to (1,0)). -/
theorem C1_build_spanning_tree_witness :
    (corridorGraph 2 1 (openCorridor 2 1 (fun _ => 0) ⟨0, 0⟩ Direction.east)).edgeFinset.card =
      2 * 1 - 1 ∧
    (corridorGraph 2 1 (openCorridor 2 1 (fun _ => 0) ⟨0, 0⟩ Direction.east)).IsAcyclic :=
  ((C1_build_spanning_tree 2 1 (fun _ => allDirections) ⟨0, 0⟩ (fun _ => List.Perm.refl _)
      (by norm_num) (by norm_num) (by decide)).2 9
    (openCorridor 2 1 (fun _ => 0) ⟨0, 0⟩ Direction.east) rfl).2

/-! ### Metric facts about trees (for the distance labeler) -/

theorem isPath_concat {V : Type} {G : SimpleGraph V} {u v w : V} {p : G.Walk u v}
    (hp : p.IsPath) (h : G.Adj v w) (hw : w ∉ p.support) : (p.concat h).IsPath := by
  rw [SimpleGraph.Walk.isPath_def, SimpleGraph.Walk.support_concat, List.concat_eq_append,
    List.nodup_append]
  refine ⟨hp.support_nodup, List.nodup_singleton w, ?_⟩
  intro a ha hb
  rw [List.mem_singleton] at hb
  subst hb
  exact hw ha

theorem dist_lt_card {V : Type} [Fintype V] {G : SimpleGraph V} (hconn : G.Connected)
    (r v : V) : G.dist r v < Fintype.card V := by
  obtain ⟨p, hp, hlen⟩ := hconn.exists_path_of_dist r v
  rw [← hlen]
  exact hp.length_lt

/-- In a connected graph, every vertex away from the root has a neighbor one
step closer to the root. -/
theorem exists_parent {V : Type} {G : SimpleGraph V} (hconn : G.Connected) (r v : V)
    (hne : v ≠ r) : ∃ q, G.Adj q v ∧ G.dist r q + 1 = G.dist r v := by
  obtain ⟨p, hp, hlen⟩ := hconn.exists_path_of_dist r v
  have hnn : ¬ p.reverse.Nil := SimpleGraph.Walk.not_nil_of_ne hne
  obtain ⟨q, hadj, rest, hdecomp⟩ := SimpleGraph.Walk.not_nil_iff.mp hnn
  refine ⟨q, hadj.symm, ?_⟩
  have hlenrev : p.reverse.length = G.dist r v := by
    rw [SimpleGraph.Walk.length_reverse, hlen]
  have hlenrest : rest.length + 1 = G.dist r v := by
    rw [← hlenrev, hdecomp, SimpleGraph.Walk.length_cons]
  have hdq : G.dist r q ≤ rest.length := by
    have hl := SimpleGraph.dist_le rest.reverse
    rwa [SimpleGraph.Walk.length_reverse] at hl
  have htri : G.dist r v ≤ G.dist r q + G.dist q v := hconn.dist_triangle
  have hqv : G.dist q v ≤ 1 := by
    have hl := SimpleGraph.dist_le (SimpleGraph.Walk.cons hadj.symm SimpleGraph.Walk.nil)
    simpa using hl
  omega

/-- In a tree the closer neighbor of the previous lemma is unique. -/
theorem parent_unique {V : Type} [DecidableEq V] {G : SimpleGraph V} (htree : G.IsTree)
    (r v q1 q2 : V) (h1 : G.Adj q1 v) (h2 : G.Adj q2 v)
    (hd1 : G.dist r q1 + 1 = G.dist r v) (hd2 : G.dist r q2 + 1 = G.dist r v) : q1 = q2 := by
  obtain ⟨hconn, hacyc⟩ := htree
  have hbuild : ∀ (q : V), G.Adj q v → G.dist r q + 1 = G.dist r v →
      ∃ (W : G.Walk r v), W.IsPath ∧ ∃ (p : G.Walk r q) (hq : G.Adj q v),
        W = p.concat hq := by
    intro q hq hdq
    obtain ⟨p, hp, hlen⟩ := hconn.exists_path_of_dist r q
    have hvp : v ∉ p.support := by
      intro hv
      have hle1 : G.dist r v ≤ (p.takeUntil v hv).length :=
        SimpleGraph.dist_le _
      have hle2 : (p.takeUntil v hv).length ≤ p.length :=
        SimpleGraph.Walk.length_takeUntil_le p hv
      omega
    exact ⟨p.concat hq, isPath_concat hp hq hvp, p, hq, rfl⟩
  obtain ⟨W1, hW1, p1, hq1, hdec1⟩ := hbuild q1 h1 hd1
  obtain ⟨W2, hW2, p2, hq2, hdec2⟩ := hbuild q2 h2 hd2
  have hWEq : W1 = W2 := by
    have := hacyc.path_unique ⟨W1, hW1⟩ ⟨W2, hW2⟩
    exact Subtype.ext_iff.mp this
  rw [hdec1, hdec2] at hWEq
  have hrev := congrArg SimpleGraph.Walk.reverse hWEq
  rw [SimpleGraph.Walk.reverse_concat, SimpleGraph.Walk.reverse_concat] at hrev
  have hgv := congrArg (fun W => SimpleGraph.Walk.getVert W 1) hrev
  simpa [SimpleGraph.Walk.getVert_cons_succ, SimpleGraph.Walk.getVert_zero] using hgv

/-- In a tree, adjacent vertices are at different distances from any root. -/
theorem adj_dist_ne {V : Type} [DecidableEq V] {G : SimpleGraph V} (htree : G.IsTree)
    (r u v : V) (hadj : G.Adj u v) : G.dist r u ≠ G.dist r v := by
  obtain ⟨hconn, hacyc⟩ := htree
  intro hEq
  obtain ⟨p, hp, hlen⟩ := hconn.exists_path_of_dist r u
  by_cases hv : v ∈ p.support
  · have hle1 : G.dist r v ≤ (p.takeUntil v hv).length := SimpleGraph.dist_le _
    have hle2 : (p.takeUntil v hv).length ≤ p.length := SimpleGraph.Walk.length_takeUntil_le p hv
    have hstrict : (p.takeUntil v hv).length ≠ p.length := by
      intro hconlen
      have hspec := SimpleGraph.Walk.take_spec p hv
      have hlens := congrArg SimpleGraph.Walk.length hspec
      rw [SimpleGraph.Walk.length_append] at hlens
      have hdrop : (p.dropUntil v hv).length = 0 := by omega
      have := SimpleGraph.Walk.eq_of_length_eq_zero hdrop
      subst this
      exact G.loopless v hadj
    omega
  · obtain ⟨p2, hp2, hlen2⟩ := hconn.exists_path_of_dist r v
    have hW : (p.concat hadj).IsPath := isPath_concat hp hadj hv
    have hWEq : p.concat hadj = p2 := by
      have := hacyc.path_unique ⟨p.concat hadj, hW⟩ ⟨p2, hp2⟩
      exact Subtype.ext_iff.mp this
    have hlens := congrArg SimpleGraph.Walk.length hWEq
    rw [SimpleGraph.Walk.length_concat] at hlens
    omega

/-! ### Storing a nonzero payload always succeeds -/

theorem cellValue_setValue_self (g : Grid) (p : Point) (v : Nat) (hv : v ≠ 0) :
    cellValue (setValue g p v) p = v := by
  have hstore : (g p &&& 15) ||| (v <<< 4) ≠ 0 := by
    intro hzero
    obtain ⟨i, hi, -⟩ := Nat.exists_most_significant_bit hv
    have hbit : ((g p &&& 15) ||| (v <<< 4)).testBit (4 + i) = true := by
      rw [Nat.testBit_or, Nat.testBit_shiftLeft]
      have h1 : 4 + i - 4 = i := by omega
      have h2 : decide (4 ≤ 4 + i) = true := by simp
      rw [h1, h2, hi, Bool.true_and, Bool.or_true]
    rw [hzero, Nat.zero_testBit] at hbit
    exact Bool.noConfusion hbit
  have happ : setValue g p v p = (g p &&& 15) ||| (v <<< 4) :=
    mutateCell_apply_self g p _ hstore
  unfold cellValue CORRIDORS_WIDTH
  rw [happ]
  apply Nat.eq_of_testBit_eq
  intro j
  rw [Nat.testBit_shiftRight, Nat.testBit_or, Nat.testBit_shiftLeft]
  have h15 : (g p &&& 15).testBit (4 + j) = false := by
    rw [Nat.testBit_and]
    have he : (15 : Nat) = 2 ^ 4 - 1 := by norm_num
    have hlt : ¬ (4 + j < 4) := by omega
    rw [he, Nat.testBit_two_pow_sub_one]
    simp [hlt]
  have h1 : 4 + j - 4 = j := by omega
  have h2 : decide (4 ≤ 4 + j) = true := by simp
  rw [h15, h1, h2, Bool.true_and, Bool.false_or]

theorem cellValue_setValue_ne (g : Grid) (p : Point) (v : Nat) (q : Point) (hq : q ≠ p) :
    cellValue (setValue g p v) q = cellValue g q := by
  unfold cellValue setValue
  rw [mutateCell_apply_ne _ _ _ _ hq]

theorem clampedVal_of_lt (v : Nat) (hv : v < 2 ^ 28) : UInt28.clampedVal v = v := by
  unfold UInt28.clampedVal UInt28.MASK
  have he : (0xfffffff : Nat) = 2 ^ 28 - 1 := by norm_num
  rw [he, Nat.and_pow_two_sub_one_eq_mod]
  exact Nat.mod_eq_of_lt hv

/-- Corridor flags only depend on the low four bits of a cell. -/
theorem hasCorridor_congr_bits (g g0 : Grid) (p : Point) (hb : g p &&& 15 = g0 p &&& 15)
    (d : Direction) : hasCorridor g p d ↔ hasCorridor g0 p d := by
  unfold hasCorridor
  have h15 : ∀ (x : Nat), x &&& d.flag = (x &&& 15) &&& d.flag := by
    intro x
    rw [Nat.land_assoc]
    have hfl : (15 : Nat) &&& d.flag = d.flag := by cases d <;> decide
    rw [hfl]
  rw [h15 (g p), h15 (g0 p), hb]

theorem add_delta_inj (c : Point) (d1 d2 : Direction) (hEq : c + d1.delta = c + d2.delta) :
    d1 = d2 := by
  have hx : c.x + d1.delta.x = c.x + d2.delta.x := congrArg Point.x hEq
  have hy : c.y + d1.delta.y = c.y + d2.delta.y := congrArg Point.y hEq
  have hdx : d1.delta.x = d2.delta.x := by omega
  have hdy : d1.delta.y = d2.delta.y := by omega
  cases d1 <;> cases d2 <;> first | rfl | (simp [Direction.delta] at hdx hdy)

theorem card_grid_vertices (w h : Nat) : Fintype.card (Fin w × Fin h) = w * h := by
  simp

/-- A graph with at most one edge has no cycle (cycles need three distinct
edges). -/
theorem isAcyclic_of_edge_card_le_one {V : Type} [Fintype V] [DecidableEq V]
    {G : SimpleGraph V} [DecidableRel G.Adj] (hcard : G.edgeFinset.card ≤ 1) :
    G.IsAcyclic := by
  intro v c hc
  have h3 := hc.three_le_length
  have hnodup := hc.edges_nodup
  have hsub : c.edges.toFinset ⊆ G.edgeFinset := by
    intro e he
    rw [List.mem_toFinset] at he
    rw [SimpleGraph.mem_edgeFinset]
    exact c.edges_subset_edgeSet he
  have hlen : c.edges.toFinset.card = c.edges.length := List.toFinset_card_of_nodup hnodup
  have hle := Finset.card_le_card hsub
  have hel := SimpleGraph.Walk.length_edges c
  omega

/-- One pop of the distance-measuring loop preserves the labeling invariant
(on a symmetric corridor tree that fits the 28-bit payload). -/
theorem measureInv_step (w h : Nat) (g0 : Grid) (r : Fin w × Fin h)
    (htree : (corridorGraph w h g0).IsTree) (hsym : corridorSymmetric w h g0)
    (hsize : w * h < 2 ^ 28) (c : Point) (dist : Nat) (rest : List (Point × Nat))
    (g : Grid) (hinv : MeasureInv w h g0 r ((c, dist) :: rest) g) :
    MeasureInv w h g0 r
      ((measurePushes w h (setValue g c (UInt28.clampedVal dist)) c dist).reverse ++ rest)
      (setValue g c (UInt28.clampedVal dist)) := by
  obtain ⟨hbits, hlabels, hstackIn, hstackDist, hstackPar, hstackUnlab, hstackNodup,
    hstartLab, hadjClosed⟩ := hinv
  have hconn := htree.1
  have hmemc : (c, dist) ∈ (c, dist) :: rest := List.mem_cons_self _ _
  have hcIn : inBounds w h c := hstackIn (c, dist) hmemc
  have hcPt : toPoint w h (toFin w h c hcIn) = c := toPoint_toFin w h c hcIn
  have hdistc : dist = (corridorGraph w h g0).dist r (toFin w h c hcIn) + 1 :=
    hstackDist (c, dist) hmemc (toFin w h c hcIn) hcPt
  have hdlt : (corridorGraph w h g0).dist r (toFin w h c hcIn) < w * h := by
    have hl := dist_lt_card hconn r (toFin w h c hcIn)
    rwa [card_grid_vertices] at hl
  have hclamp : UInt28.clampedVal dist = dist := clampedVal_of_lt dist (by omega)
  rw [hclamp]
  have hdist0 : dist ≠ 0 := by omega
  have hcv2self : cellValue (setValue g c dist) c = dist := cellValue_setValue_self g c dist hdist0
  have hcunlab : cellValue g c = 0 := hstackUnlab (c, dist) hmemc
  have hmono : ∀ p : Point, cellValue g p ≠ 0 →
      cellValue (setValue g c dist) p = cellValue g p := by
    intro p hp
    rcases eq_or_ne p c with rfl | hne
    · exact absurd hcunlab hp
    · exact cellValue_setValue_ne g c dist p hne
  have hcorr0 : ∀ (p : Point) (d : Direction), hasCorridor g p d ↔ hasCorridor g0 p d :=
    fun p d => hasCorridor_congr_bits g g0 p (hbits p) d
  rw [List.map_cons] at hstackNodup
  have hnodup0 := List.nodup_cons.mp hstackNodup
  have hpushElem : ∀ e ∈ measurePushes w h (setValue g c dist) c dist,
      ∃ dd : Direction, hasCorridor g0 c dd ∧ inBounds w h (c + dd.delta) ∧
        cellValue (setValue g c dist) (c + dd.delta) = 0 ∧ e = (c + dd.delta, dist + 1) := by
    intro e he
    rw [mem_measurePushes] at he
    obtain ⟨dd, h1, h2, h3, h4⟩ := he
    rw [hasCorridor_setValue] at h1
    exact ⟨dd, (hcorr0 c dd).mp h1, h2, h3, h4⟩
  have hneigh : ∀ (dd : Direction) (nF : Fin w × Fin h),
      toPoint w h nF = c + dd.delta → hasCorridor g0 c dd →
      cellValue g (c + dd.delta) = 0 →
      (corridorGraph w h g0).Adj (toFin w h c hcIn) nF ∧
      (corridorGraph w h g0).dist r nF =
        (corridorGraph w h g0).dist r (toFin w h c hcIn) + 1 := by
    intro dd nF hnPt hc0 hn0
    have hnIn : inBounds w h (c + dd.delta) := by
      rw [← hnPt]
      exact toPoint_inBounds w h nF
    have hlink : corridorLinked g0 c (c + dd.delta) :=
      ⟨dd, rfl, hc0, (hsym c hcIn dd hnIn).mp hc0⟩
    have hadj : (corridorGraph w h g0).Adj (toFin w h c hcIn) nF := by
      rw [corridorGraph_adj_iff]
      rw [hcPt, hnPt]
      exact hlink
    refine ⟨hadj, ?_⟩
    have hne := adj_dist_ne htree r (toFin w h c hcIn) nF hadj
    have htri1 : (corridorGraph w h g0).dist r nF ≤
        (corridorGraph w h g0).dist r (toFin w h c hcIn) +
        (corridorGraph w h g0).dist (toFin w h c hcIn) nF := hconn.dist_triangle
    have htri2 : (corridorGraph w h g0).dist r (toFin w h c hcIn) ≤
        (corridorGraph w h g0).dist r nF +
        (corridorGraph w h g0).dist nF (toFin w h c hcIn) := hconn.dist_triangle
    have hd1 : (corridorGraph w h g0).dist (toFin w h c hcIn) nF ≤ 1 := by
      have hl := SimpleGraph.dist_le (SimpleGraph.Walk.cons hadj SimpleGraph.Walk.nil)
      simpa using hl
    have hd2 : (corridorGraph w h g0).dist nF (toFin w h c hcIn) ≤ 1 := by
      have hl := SimpleGraph.dist_le (SimpleGraph.Walk.cons hadj.symm SimpleGraph.Walk.nil)
      simpa using hl
    have hnotlt : (corridorGraph w h g0).dist r nF + 1 ≠
        (corridorGraph w h g0).dist r (toFin w h c hcIn) := by
      intro hcl
      rcases hstackPar (c, dist) hmemc (toFin w h c hcIn) hcPt with hcr | hpar
      · rw [hcr] at hcl
        have h0 : (corridorGraph w h g0).dist r r = 0 := SimpleGraph.dist_self
        omega
      · have hlab := hpar nF hadj.symm hcl
        rw [hnPt] at hlab
        exact hlab hn0
    omega
  refine ⟨?_, ?_, ?_, ?_, ?_, ?_, ?_, ?_, ?_⟩
  · intro p
    rw [setValue_and_fifteen]
    exact hbits p
  · intro a ha
    rcases eq_or_ne (toPoint w h a) c with hEq | hne
    · have haF : a = toFin w h c hcIn := toPoint_injective w h a _ (by rw [hEq, hcPt])
      rw [hEq, hcv2self, haF]
      exact hdistc
    · rw [cellValue_setValue_ne g c dist _ hne] at ha ⊢
      exact hlabels a ha
  · intro e he
    rw [List.mem_append] at he
    rcases he with he | he
    · rw [List.mem_reverse] at he
      obtain ⟨dd, -, h2, -, rfl⟩ := hpushElem e he
      exact h2
    · exact hstackIn e (List.mem_cons_of_mem _ he)
  · intro e he a haPt
    rw [List.mem_append] at he
    rcases he with he | he
    · rw [List.mem_reverse] at he
      obtain ⟨dd, h1, h2, h3, rfl⟩ := hpushElem e he
      have hn0 : cellValue g (c + dd.delta) = 0 := by
        rw [cellValue_setValue_ne g c dist _ (add_delta_ne c dd)] at h3
        exact h3
      have hfacts := hneigh dd a haPt h1 hn0
      show dist + 1 = (corridorGraph w h g0).dist r a + 1
      rw [hfacts.2]
      omega
    · exact hstackDist e (List.mem_cons_of_mem _ he) a haPt
  · intro e he a haPt
    rw [List.mem_append] at he
    rcases he with he | he
    · rw [List.mem_reverse] at he
      obtain ⟨dd, h1, h2, h3, rfl⟩ := hpushElem e he
      have hn0 : cellValue g (c + dd.delta) = 0 := by
        rw [cellValue_setValue_ne g c dist _ (add_delta_ne c dd)] at h3
        exact h3
      have hfacts := hneigh dd a haPt h1 hn0
      right
      intro q hq hdq
      have hqc : q = toFin w h c hcIn :=
        parent_unique htree r a q (toFin w h c hcIn) hq hfacts.1 hdq hfacts.2.symm
      rw [hqc, hcPt, hcv2self]
      exact hdist0
    · rcases hstackPar e (List.mem_cons_of_mem _ he) a haPt with har | hpar
      · exact Or.inl har
      · right
        intro q hq hdq
        have hlab := hpar q hq hdq
        rw [hmono _ hlab]
        exact hlab
  · intro e he
    rw [List.mem_append] at he
    rcases he with he | he
    · rw [List.mem_reverse] at he
      obtain ⟨dd, -, -, h3, rfl⟩ := hpushElem e he
      exact h3
    · have h0 := hstackUnlab e (List.mem_cons_of_mem _ he)
      have hne : e.1 ≠ c := by
        intro hEq
        apply hnodup0.1
        have hm : e.1 ∈ List.map Prod.fst rest := List.mem_map_of_mem Prod.fst he
        rw [hEq] at hm
        exact hm
      rw [cellValue_setValue_ne g c dist _ hne]
      exact h0
  · rw [List.map_append, List.map_reverse, List.nodup_append]
    refine ⟨List.nodup_reverse.mpr ?_, hnodup0.2, ?_⟩
    · unfold measurePushes
      rw [List.map_filterMap]
      apply List.Nodup.filterMap
      · intro d1 d2 p hp1 hp2
        rw [Option.mem_def] at hp1 hp2
        by_cases hP1 : hasCorridor (setValue g c dist) c d1 ∧ inBounds w h (c + d1.delta) ∧
            cellValue (setValue g c dist) (c + d1.delta) = 0
        · rw [if_pos hP1, Option.map_some'] at hp1
          by_cases hP2 : hasCorridor (setValue g c dist) c d2 ∧ inBounds w h (c + d2.delta) ∧
              cellValue (setValue g c dist) (c + d2.delta) = 0
          · rw [if_pos hP2, Option.map_some'] at hp2
            injection hp1 with hp1
            injection hp2 with hp2
            have hq1 : c + d1.delta = p := hp1
            have hq2 : c + d2.delta = p := hp2
            exact add_delta_inj c d1 d2 (by rw [hq1, hq2])
          · rw [if_neg hP2, Option.map_none'] at hp2
            exact Option.noConfusion hp2
        · rw [if_neg hP1, Option.map_none'] at hp1
          exact Option.noConfusion hp1
      · exact (by decide : allDirections.Nodup)
    · intro p hp1 hp2
      rw [List.mem_reverse] at hp1
      rw [List.mem_map] at hp1 hp2
      obtain ⟨e1, he1, hfst1⟩ := hp1
      obtain ⟨e2, he2, hfst2⟩ := hp2
      obtain ⟨dd, h1, h2, h3, rfl⟩ := hpushElem e1 he1
      have hn0 : cellValue g (c + dd.delta) = 0 := by
        rw [cellValue_setValue_ne g c dist _ (add_delta_ne c dd)] at h3
        exact h3
      have hnPt : toPoint w h (toFin w h (c + dd.delta) h2) = c + dd.delta :=
        toPoint_toFin w h _ h2
      have hfacts := hneigh dd (toFin w h (c + dd.delta) h2) hnPt h1 hn0
      have hpe : c + dd.delta = p := hfst1
      have haPt2 : toPoint w h (toFin w h (c + dd.delta) h2) = e2.1 := by
        rw [hnPt, hpe]
        exact hfst2.symm
      rcases hstackPar e2 (List.mem_cons_of_mem _ he2) _ haPt2 with har | hpar
      · rw [har] at hfacts
        have hf2 := hfacts.2
        have h0 : (corridorGraph w h g0).dist r r = 0 := SimpleGraph.dist_self
        omega
      · have hlab := hpar (toFin w h c hcIn) hfacts.1 hfacts.2.symm
        rw [hcPt] at hlab
        exact hlab hcunlab
  · right
    rcases hstartLab with hall | hr
    · have hcr : toFin w h c hcIn = r := by
        rcases hstackPar (c, dist) hmemc (toFin w h c hcIn) hcPt with hcr | hpar
        · exact hcr
        · by_contra hner
          obtain ⟨q, hq1, hq2⟩ := exists_parent hconn r (toFin w h c hcIn) hner
          exact hpar q hq1 hq2 (hall q)
      rw [← hcr, hcPt, hcv2self]
      exact hdist0
    · rw [hmono _ hr]
      exact hr
  · intro a ha d hcorr htIn
    rcases eq_or_ne (toPoint w h a) c with hEq | hne
    · by_cases h0 : cellValue (setValue g c dist) (toPoint w h a + d.delta) = 0
      · right
        rw [List.map_append, List.mem_append]
        left
        rw [List.map_reverse, List.mem_reverse, List.mem_map]
        refine ⟨(c + d.delta, dist + 1), ?_, ?_⟩
        · rw [mem_measurePushes]
          rw [hEq] at hcorr htIn h0
          exact ⟨d, hcorr, htIn, h0, rfl⟩
        · show c + d.delta = toPoint w h a + d.delta
          rw [hEq]
      · exact Or.inl h0
    · have hag : cellValue g (toPoint w h a) ≠ 0 := by
        rw [cellValue_setValue_ne g c dist _ hne] at ha
        exact ha
      have hcorrg : hasCorridor g (toPoint w h a) d := by
        rw [hasCorridor_setValue] at hcorr
        exact hcorr
      rcases hadjClosed a hag d hcorrg htIn with hlab | hmem
      · exact Or.inl (by rw [hmono _ hlab]; exact hlab)
      · rcases List.mem_map.mp hmem with ⟨e, he, hfst⟩
        rcases List.mem_cons.mp he with hec | her
        · left
          rw [← hfst, hec]
          show cellValue (setValue g c dist) c ≠ 0
          rw [hcv2self]
          exact hdist0
        · right
          rw [List.map_append, List.mem_append]
          right
          rw [← hfst]
          exact List.mem_map_of_mem Prod.fst her

/-- Running the measure loop from any invariant state reaches the invariant
at the empty stack; labels, once stamped, are permanent. -/
theorem measureLoop_run (w h : Nat) (g0 : Grid) (r : Fin w × Fin h)
    (htree : (corridorGraph w h g0).IsTree) (hsym : corridorSymmetric w h g0)
    (hsize : w * h < 2 ^ 28) :
    ∀ (fuel : Nat) (st : List (Point × Nat)) (g g' : Grid),
      MeasureInv w h g0 r st g → measureLoop w h fuel st g = some g' →
      MeasureInv w h g0 r [] g' ∧
        ∀ p : Point, cellValue g p ≠ 0 → cellValue g' p ≠ 0 := by
  intro fuel
  induction fuel with
  | zero =>
    intro st g g' hinv hrun
    cases st with
    | nil =>
      injection hrun with hrun
      subst hrun
      exact ⟨hinv, fun p hp => hp⟩
    | cons e rest => exact Option.noConfusion hrun
  | succ fuel ih =>
    intro st g g' hinv hrun
    cases st with
    | nil =>
      injection hrun with hrun
      subst hrun
      exact ⟨hinv, fun p hp => hp⟩
    | cons e rest =>
      obtain ⟨c, dist⟩ := e
      rw [measureLoop] at hrun
      have hstep := measureInv_step w h g0 r htree hsym hsize c dist rest g hinv
      obtain ⟨hfin, hmono⟩ := ih _ _ _ hstep hrun
      refine ⟨hfin, ?_⟩
      intro p hp
      apply hmono
      rcases eq_or_ne p c with rfl | hne
      · exact absurd (hinv.stackUnlab (p, dist) (List.mem_cons_self _ _)) hp
      · rw [cellValue_setValue_ne g c _ p hne]
        exact hp

/-- With the invariant at the empty stack, labels spread along every
corridor walk out of a labeled cell. -/
theorem labeled_of_walk (w h : Nat) (g0 : Grid) (r : Fin w × Fin h) (g' : Grid)
    (hinv : MeasureInv w h g0 r [] g') :
    ∀ {a b : Fin w × Fin h} (p : (corridorGraph w h g0).Walk a b),
      cellValue g' (toPoint w h a) ≠ 0 → cellValue g' (toPoint w h b) ≠ 0 := by
  intro a b p
  induction p with
  | nil => exact fun hx => hx
  | cons hadj q ih =>
    intro hu
    apply ih
    rename_i u v w2
    have hlink := (corridorGraph_adj_iff w h g0 u v).mp hadj
    obtain ⟨dd, hv, hb1, hb2⟩ := hlink
    have hcorr : hasCorridor g' (toPoint w h u) dd :=
      (hasCorridor_congr_bits g' g0 (toPoint w h u) (hinv.bits _) dd).mpr hb1
    have htIn : inBounds w h (toPoint w h u + dd.delta) := by
      rw [← hv]
      exact toPoint_inBounds w h v
    rcases hinv.adjClosed u hu dd hcorr htIn with hlab | hmem
    · rw [hv]
      exact hlab
    · simp at hmem

/-- The invariant holds as the loop starts on an all-sentinel grid. -/
theorem measureInv_init (w h : Nat) (g0 : Grid) (start : Point) (hs : inBounds w h start)
    (hzero : ∀ p : Point, inBounds w h p → cellValue g0 p = 0) :
    MeasureInv w h g0 (toFin w h start hs) [(start, 1)] g0 := by
  have hzF : ∀ a : Fin w × Fin h, cellValue g0 (toPoint w h a) = 0 :=
    fun a => hzero _ (toPoint_inBounds w h a)
  refine ⟨fun p => rfl, ?_, ?_, ?_, ?_, ?_, ?_, ?_, ?_⟩
  · intro a ha
    exact absurd (hzF a) ha
  · intro e he
    rw [List.mem_singleton] at he
    subst he
    exact hs
  · intro e he a haPt
    rw [List.mem_singleton] at he
    subst he
    have haF : a = toFin w h start hs :=
      toPoint_injective w h a _ (by rw [haPt, toPoint_toFin])
    show 1 = (corridorGraph w h g0).dist (toFin w h start hs) a + 1
    rw [haF]
    have h0 : (corridorGraph w h g0).dist (toFin w h start hs) (toFin w h start hs) = 0 :=
      SimpleGraph.dist_self
    omega
  · intro e he a haPt
    rw [List.mem_singleton] at he
    subst he
    left
    exact toPoint_injective w h a _ (by rw [haPt, toPoint_toFin])
  · intro e he
    rw [List.mem_singleton] at he
    subst he
    exact hzero start hs
  · exact List.nodup_singleton _
  · exact Or.inl hzF
  · intro a ha
    exact absurd (hzF a) ha

/-- C2: For every grid whose payloads all start at the 0 sentinel, whose
corridor bits are symmetric and form a tree over the whole grid, and whose
cell count fits the 28-bit payload, after label(grid, start)
(measure_distances) completes from an in-bounds start, the payload of every
cell equals 1 + the length of the unique tree path from start to it.  (The
frozen claim omits the all-payloads-zero precondition; C2_counterexample
shows it is necessary.) -/
theorem C2_label_distances (w h : Nat) (fuel : Nat) (g0 g' : Grid) (start : Point)
    (hs : inBounds w h start)
    (hzero : ∀ p : Point, inBounds w h p → cellValue g0 p = 0)
    (hsym : corridorSymmetric w h g0)
    (htree : (corridorGraph w h g0).IsTree)
    (hsize : w * h < 2 ^ 28)
    (hrun : measureDistances w h fuel g0 start = Except.ok (some g')) :
    ∀ a : Fin w × Fin h,
      cellValue g' (toPoint w h a) =
        (corridorGraph w h g0).dist (toFin w h start hs) a + 1 := by
  unfold measureDistances at hrun
  rw [if_pos hs] at hrun
  injection hrun with hrun
  cases fuel with
  | zero => exact Option.noConfusion hrun
  | succ fuel =>
    rw [measureLoop] at hrun
    have hinit := measureInv_init w h g0 start hs hzero
    have hstep := measureInv_step w h g0 (toFin w h start hs) htree hsym hsize start 1 [] g0
      hinit
    obtain ⟨hfin, hmono⟩ := measureLoop_run w h g0 (toFin w h start hs) htree hsym hsize
      fuel _ _ g' hstep hrun
    have hrlab : cellValue g' (toPoint w h (toFin w h start hs)) ≠ 0 := by
      apply hmono
      rw [toPoint_toFin]
      have h1 : UInt28.clampedVal 1 = 1 := by decide
      rw [h1, cellValue_setValue_self g0 start 1 (by omega)]
      omega
    intro a
    obtain ⟨p⟩ := htree.1.preconnected (toFin w h start hs) a
    exact hfin.labels a (labeled_of_walk w h g0 (toFin w h start hs) g' hfin p hrlab)

/-- C2 witness: on the 1-by-1 all-zero grid the single cell ends with
payload 1 = 1 + distance 0. -/
theorem C2_label_distances_witness :
    (∀ p : Point, inBounds 1 1 p → cellValue (fun _ => 0) p = 0) ∧
    corridorSymmetric 1 1 (fun _ => 0) ∧
    (corridorGraph 1 1 (fun _ => 0)).IsTree ∧
    1 * 1 < 2 ^ 28 ∧
    ∀ a : Fin 1 × Fin 1,
      cellValue (setValue (fun _ => 0) ⟨0, 0⟩ (UInt28.clampedVal 1)) (toPoint 1 1 a) =
        (corridorGraph 1 1 (fun _ => 0)).dist (toFin 1 1 ⟨0, 0⟩ (by decide)) a + 1 := by
  have hzero : ∀ p : Point, inBounds 1 1 p → cellValue (fun _ => 0) p = 0 :=
    fun p hp => Nat.zero_shiftRight 4
  have hsym : corridorSymmetric 1 1 (fun _ => 0) := by
    intro p hp d hd
    simp [hasCorridor, Nat.zero_and]
  have htree : (corridorGraph 1 1 (fun _ => 0)).IsTree := by
    rw [corridorGraph_zero]
    constructor
    · refine SimpleGraph.Connected.mk ?_
      intro u v
      have huv : u = v := Subsingleton.elim u v
      rw [huv]
    · intro v c hc
      have h3 := hc.three_le_length
      cases c with
      | nil => simp at h3
      | cons hadj q => exact hadj.elim
  refine ⟨hzero, hsym, htree, by norm_num, ?_⟩
  intro a
  exact C2_label_distances 1 1 2 (fun _ => 0)
    (setValue (fun _ => 0) ⟨0, 0⟩ (UInt28.clampedVal 1)) ⟨0, 0⟩ (by decide)
    hzero hsym htree (by norm_num) rfl a

/-- C2 counterexample: gC2 is a 2-by-1 grid whose corridor graph is a tree
containing the in-bounds start (0,0) and whose cell (1,0) is reachable from
the start, yet after the labeler completes that cell's payload is its
original 5, not 1 + (tree-path length 1) = 2: the `value() == 0` sentinel
test skips cells whose initial payload is nonzero, so the frozen claim
fails without an all-payloads-start-at-0 precondition. -/
theorem C2_counterexample :
    (corridorGraph 2 1 gC2).IsTree ∧ inBounds 2 1 (⟨0, 0⟩ : Point) ∧
    measureDistances 2 1 2 gC2 ⟨0, 0⟩ = Except.ok (some gC2run) ∧
    corridorReach 2 1 gC2 ⟨0, 0⟩ ⟨1, 0⟩ ∧
    (corridorGraph 2 1 gC2).dist (toFin 2 1 ⟨0, 0⟩ (by decide)) (toFin 2 1 ⟨1, 0⟩ (by decide))
      = 1 ∧
    cellValue gC2run ⟨1, 0⟩ = 5 ∧
    cellValue gC2run ⟨1, 0⟩ ≠
      (corridorGraph 2 1 gC2).dist (toFin 2 1 ⟨0, 0⟩ (by decide)) (toFin 2 1 ⟨1, 0⟩ (by decide))
        + 1 := by
  have hadj : (corridorGraph 2 1 gC2).Adj (toFin 2 1 ⟨0, 0⟩ (by decide))
      (toFin 2 1 ⟨1, 0⟩ (by decide)) := by decide
  have hdist : (corridorGraph 2 1 gC2).dist (toFin 2 1 ⟨0, 0⟩ (by decide))
      (toFin 2 1 ⟨1, 0⟩ (by decide)) = 1 := SimpleGraph.dist_eq_one_iff_adj.mpr hadj
  have htree : (corridorGraph 2 1 gC2).IsTree := by
    constructor
    · refine SimpleGraph.Connected.mk ?_
      intro u v
      obtain ⟨u1, u2⟩ := u
      obtain ⟨v1, v2⟩ := v
      fin_cases u1 <;> fin_cases v1 <;> fin_cases u2 <;> fin_cases v2 <;>
        first
          | exact SimpleGraph.Reachable.refl _
          | exact SimpleGraph.Adj.reachable (by decide)
    · exact isAcyclic_of_edge_card_le_one (by decide)
  refine ⟨htree, by decide, rfl, ?_, hdist, by decide, ?_⟩
  · exact Relation.ReflTransGen.single
      ⟨by decide, by decide, Direction.east, by decide, by decide⟩
  · rw [hdist]
    decide
